import Mathlib

/-!
# A verification development for the `watcher` platform adapters

Shallow embedding of the event-translation code of the filesystem watcher:

* `wtr`            : the normalized event model (`::wtr::watcher::event`);
* `fs`             : the few `std::filesystem::path` operations the adapters use;
* `inotify`        : the devel Linux adapter
                     (`devel/include/detail/wtr/watcher/adapter/linux/inotify/watch.hpp`);
* `legacy_inotify` : the legacy Linux adapter
                     (`include/watcher/detail/adapter/linux/inotify/watch.hpp`);
* `darwin`         : the devel Darwin adapter
                     (`devel/include/detail/wtr/watcher/adapter/darwin/watch.hpp`).

The sink (the user callback) is modelled by the list of calls made to it, in
call order.  Operating-system answers (`close`, `inotify_add_watch`, `access`,
`read`) are inputs of the model, so that a statement quantified over them
covers every outcome of the calls.
-/

/-! ## Event model -/

namespace wtr

/-- The enumeration `event::effect_type`, with the enumerators the adapters use. -/
inductive effect_type where
  | rename
  | modify
  | create
  | destroy
  | other
deriving DecidableEq

/-- The enumeration `event::path_type`, with the enumerators the adapters use. -/
inductive path_type where
  | dir
  | file
  | hard_link
  | sym_link
  | watcher
  | other
deriving DecidableEq

/-- An event as handed to the sink: `{path, effect, path kind}`. -/
structure event where
  path : String
  effect : effect_type
  path_kind : path_type
deriving DecidableEq

/-- One call of the sink: with a single event, or with the paired form
`{{from, ..}, {to, ..}}` used for correlated renames. -/
inductive sink_call where
  | one (e : event)
  | pair (e_from e_to : event)
deriving DecidableEq

end wtr

/-! ## `std::filesystem::path` on a POSIX host

A path is represented by its native string. -/

namespace fs

/-- The member `path::has_filename`: the path is not empty and does not end in a separator. -/
def has_filename (p : String) : Bool :=
  match p.data.getLast? with
  | some c => c != '/'
  | none => false

/-- The member `path::has_root_directory`: the path starts with a separator. -/
def has_root_directory (p : String) : Bool :=
  p.data.head? == some '/'

/-- The member `path::is_absolute`: a POSIX path has no root name, so it is
absolute exactly when it has a root directory. -/
def is_absolute (p : String) : Bool :=
  has_root_directory p

/-- The operator `p / q`: `q` replaces `p` when `q` is absolute; otherwise `q` is
appended, after a separator when `p` has a filename. -/
def append (p q : String) : String :=
  if is_absolute q then q
  else if has_filename p then p ++ "/" ++ q
  else p ++ q

/-- Elements of the relative part of a path, as `path::begin()..end()` yields them:
the separator-delimited names, runs of separators collapsed, and one empty
element when a separator follows the last name.  `cur` is the name being read. -/
def elements_from : List Char → List Char → List (List Char)
  | [], [] => []
  | c :: cur, [] => [(c :: cur).reverse]
  | [], c :: cs => if c = '/' then elements_from [] cs else elements_from [c] cs
  | d :: cur, c :: cs =>
    if c = '/' then
      (d :: cur).reverse :: (if cs.all (fun x => x == '/') then [[]] else elements_from [] cs)
    else elements_from (c :: d :: cur) cs

/-- The comparison `a == b` of two paths (`path::compare(b) == 0`): same root
directory and the same sequence of elements.  A POSIX path has no root name. -/
def path_eq (a b : String) : Bool :=
  has_root_directory a == has_root_directory b
    && elements_from [] a.data == elements_from [] b.data

end fs

/-! ## The devel Linux adapter (inotify) -/

namespace inotify

open wtr

/-! Constants of `<sys/inotify.h>` and of the adapter. -/

def IN_MODIFY : Nat := 0x00000002
def IN_MOVED_FROM : Nat := 0x00000040
def IN_MOVED_TO : Nat := 0x00000080
def IN_MOVE : Nat := IN_MOVED_FROM ||| IN_MOVED_TO
def IN_CREATE : Nat := 0x00000100
def IN_DELETE : Nat := 0x00000200
def IN_Q_OVERFLOW : Nat := 0x00004000
def IN_ISDIR : Nat := 0x40000000

def delay_ms : Nat := 16
def event_wait_queue_max : Nat := 1
def event_buf_len : Nat := 4096
def in_watch_opt : Nat :=
  IN_CREATE ||| IN_MODIFY ||| IN_DELETE ||| IN_MOVED_FROM ||| IN_Q_OVERFLOW

/-- The record `struct inotify_event`: the four header fields, and `name`, the
NUL-terminated string found at the flexible array member.  `len` is the
number of bytes the kernel reserved for the name, padding included. -/
structure inotify_event where
  wd : Int
  mask : Nat
  cookie : Nat
  len : Nat
  name : String
deriving DecidableEq

/-- The value `sizeof(inotify_event)`: four 32-bit header fields. -/
def sizeof_inotify_event : Nat := 16

/-- Bytes one record occupies in the buffer: the header and the declared name length. -/
def record_size (e : inotify_event) : Nat := sizeof_inotify_event + e.len

/-- Bytes a packed buffer of records occupies: the value `read` returned for it. -/
def read_len : List inotify_event → Nat
  | [] => 0
  | e :: es => record_size e + read_len es

/-- The record the kernel wrote at byte offset `off` of a packed buffer,
`none` when no record starts there (the bytes there are the inside of a record). -/
def event_at : List inotify_event → Nat → Option inotify_event
  | [], _ => none
  | e :: es, off =>
    if off = 0 then some e
    else if off < record_size e then none
    else event_at es (off - record_size e)

/-! The bytes of a packed buffer, and what the cast `(inotify_event*)` finds in
them.  The layout is the one of a little-endian host: `wd`, `mask`, `cookie`
and `len` are 32-bit values, `wd` signed, followed by `len` bytes of name.  A
path is a string of bytes: the character with code `b` stands for the byte `b`. -/

/-- The four bytes of a 32-bit value, least significant first. -/
def le32 (v : Nat) : List Nat :=
  [v % 256, v / 256 % 256, v / 65536 % 256, v / 16777216 % 256]

/-- The `len` bytes the kernel writes for the name of a record: the bytes of
the name, then NUL bytes up to `len`. -/
def name_bytes (e : inotify_event) : List Nat :=
  (e.name.data.map (fun c : Char => c.toNat % 256) ++ List.replicate e.len 0).take e.len

/-- The bytes of one record: the header and the name. -/
def record_bytes (e : inotify_event) : List Nat :=
  le32 (e.wd % 4294967296).toNat ++ le32 e.mask ++ le32 e.cookie ++ le32 e.len ++ name_bytes e

/-- The bytes of a packed buffer of records. -/
def buffer_bytes : List inotify_event → List Nat
  | [] => []
  | e :: es => record_bytes e ++ buffer_bytes es

/-- The byte at index `i`; the bytes after the listed ones are NUL. -/
def byte_at (mem : List Nat) (i : Nat) : Nat := mem.getD i 0

/-- The unsigned 32-bit value stored at byte offset `off`. -/
def le32_at (mem : List Nat) (off : Nat) : Nat :=
  byte_at mem off + 256 * byte_at mem (off + 1) + 65536 * byte_at mem (off + 2)
    + 16777216 * byte_at mem (off + 3)

/-- The value of an `int` with the bits of the unsigned 32-bit value `v`. -/
def int32_of (v : Nat) : Int :=
  if v < 2147483648 then (v : Int) else (v : Int) - 4294967296

/-- The NUL-terminated string that starts at byte offset `off`. -/
def c_string_at (mem : List Nat) (off : Nat) : String :=
  String.mk (((mem.drop off).takeWhile (fun b => b != 0)).map Char.ofNat)

/-- What `this_event->wd`, `->mask`, `->cookie`, `->len` and `->name` give
when `this_event` points at byte offset `off` of the bytes `mem`, whatever
those bytes are. -/
def this_event_at (mem : List Nat) (off : Nat) : inotify_event :=
  ⟨int32_of (le32_at mem off), le32_at mem (off + 4), le32_at mem (off + 8),
    le32_at mem (off + 12), c_string_at mem (off + 16)⟩

/-- The buffer as the record loop uses it after a `read` that returned
`len > 0`: the value `len`, and for every byte offset the `inotify_event` the
code finds when its record pointer `this_event` is at that offset (the header
fields read there and the NUL-terminated string that follows them).  The code
reads through the pointer at whatever offset it has reached, whether or not
the kernel wrote a record there. -/
structure read_buffer where
  len : Nat
  this_event : Nat → inotify_event

/-- The buffer after a `read` that returned the packed records `l`, on a
little-endian host, the bytes after them being NUL. -/
def packed (l : List inotify_event) : read_buffer :=
  ⟨read_len l, this_event_at (buffer_bytes l)⟩

/-- The alias `path_map_type` (`std::unordered_map<int, fs::path>`), as the list of its entries. -/
abbrev path_map_type := List (Int × String)

/-- The lookup `pm.find(wd)`: the mapped path, `none` for the end iterator. -/
def pm_find (pm : path_map_type) (wd : Int) : Option String :=
  match pm with
  | [] => none
  | (k, v) :: rest => if k = wd then some v else pm_find rest wd

/-- The call `pm.erase(wd)`. -/
def pm_erase (pm : path_map_type) (wd : Int) : path_map_type :=
  pm.filter (fun kv => kv.1 ≠ wd)

/-- The assignment `pm[wd] = path`: inserts the key or overwrites its value. -/
def pm_assign (pm : path_map_type) (wd : Int) (path : String) : path_map_type :=
  (wd, path) :: pm_erase pm wd

/-- The call `pm.emplace(wd, path)`: inserts unless the key is present. -/
def pm_emplace (pm : path_map_type) (wd : Int) (path : String) : path_map_type :=
  match pm_find pm wd with
  | some _ => pm
  | none => (wd, path) :: pm

/-- The record `sys_resource_type`. -/
structure sys_resource_type where
  valid : Bool
  watch_fd : Int
  event_fd : Int
  event_conf_events : Nat
  event_conf_fd : Int
deriving DecidableEq

/-- What the record loop works on: the watch-descriptor map, the set of watch
descriptors active in the inotify instance, and the number of
`inotify_add_watch` calls made so far (the index of the next answer). -/
structure recv_state where
  pm : path_map_type
  active : Finset Int
  adds : Nat
deriving DecidableEq

/-- Ways a run of the embedded code ends without a result: the dereference of
the end iterator `pm.find(wd)` returned (undefined behaviour), or the fuel of
a loop used up. -/
inductive fault where
  | end_iterator_deref
  | out_of_fuel
deriving DecidableEq

deriving instance DecidableEq for Except

/-- The call `inotify_add_watch(watch_fd, path, in_watch_opt)` whose answer is
`r`: a positive `r` is the descriptor returned and becomes active, any other
answer is the failure value `-1`. -/
def inotify_add_watch (r : Int) (active : Finset Int) : Int × Finset Int :=
  if 0 < r then (r, insert r active) else (-1, active)

/-- The call `inotify_rm_watch(watch_fd, wd)`: the descriptor is no longer active. -/
def inotify_rm_watch (wd : Int) (active : Finset Int) : Finset Int :=
  active.erase wd

/-- The ternary chain computing `path_type` from a record's mask. -/
def path_type_of (mask : Nat) : path_type :=
  if mask &&& IN_ISDIR ≠ 0 then path_type.dir else path_type.file

/-- The ternary chain computing `effect_type` from a record's mask. -/
def effect_type_of (mask : Nat) : effect_type :=
  if mask &&& IN_CREATE ≠ 0 then effect_type.create
  else if mask &&& IN_DELETE ≠ 0 then effect_type.destroy
  else if mask &&& IN_MOVE ≠ 0 then effect_type.rename
  else if mask &&& IN_MODIFY ≠ 0 then effect_type.modify
  else effect_type.other

/-- The body of the `while` loop of `do_event_recv`, for the record `ev`:
the new state and the sink calls made.  `add n p` is the answer of the `n`-th
`inotify_add_watch` call when made for path `p`. -/
def do_event_recv_record (add : Nat → String → Int) (base_path : String)
    (st : recv_state) (ev : inotify_event) : Except fault (recv_state × List sink_call) :=
  if ev.mask &&& IN_Q_OVERFLOW = 0 then
    match pm_find st.pm ev.wd with
    | none => Except.error fault.end_iterator_deref
    | some parent =>
      let path := fs.append parent ev.name
      let pt := path_type_of ev.mask
      let et := effect_type_of ev.mask
      let calls := [sink_call.one ⟨path, et, pt⟩]
      if pt = path_type.dir ∧ et = effect_type.create then
        let r := inotify_add_watch (add st.adds path) st.active
        Except.ok (⟨pm_assign st.pm r.1 path, r.2, st.adds + 1⟩, calls)
      else if pt = path_type.dir ∧ et = effect_type.destroy then
        Except.ok (⟨pm_erase st.pm ev.wd, inotify_rm_watch ev.wd st.active, st.adds⟩, calls)
      else Except.ok (st, calls)
  else
    Except.ok (st, [sink_call.one
      ⟨"e/self/overflow@" ++ base_path, effect_type.other, path_type.watcher⟩])

/-- Bytes the statement `this_event += sizeof(inotify_event)` moves the record
pointer: `this_event` has type `inotify_event*`, so the pointer moves by
`sizeof(inotify_event)` elements of `sizeof(inotify_event)` bytes each. -/
def this_event_stride : Nat := sizeof_inotify_event * sizeof_inotify_event

/-- The `while (this_event < buf + read_len)` loop of `do_event_recv` over the
buffer `buf`, from the record pointer at byte offset `off`, with `fuel`
iterations allowed.  Each iteration works on what it finds at the pointer. -/
def do_event_recv_loop (add : Nat → String → Int) (base_path : String)
    (buf : read_buffer) :
    Nat → Nat → recv_state → Except fault (recv_state × List sink_call)
  | 0, off, st => if off < buf.len then Except.error fault.out_of_fuel else Except.ok (st, [])
  | fuel + 1, off, st =>
    if off < buf.len then
      match do_event_recv_record add base_path st (buf.this_event off) with
      | Except.error f => Except.error f
      | Except.ok (st1, calls1) =>
        match do_event_recv_loop add base_path buf fuel (off + this_event_stride) st1 with
        | Except.error f => Except.error f
        | Except.ok (st2, calls2) => Except.ok (st2, calls1 ++ calls2)
    else Except.ok (st, [])

/-- Outcome of one `read(watch_fd, buf, event_buf_len)`: the buffer it leaves
and the value `buf.len` it returned (0 for a read that returned nothing), or
the failure value with `errno == EAGAIN`, or the failure value with another
`errno`. -/
inductive read_result where
  | buffer (buf : read_buffer)
  | eagain
  | failure

/-- A `read` that returned the packed records `l` (`read_len l` bytes). -/
def read_result.records (l : List inotify_event) : read_result :=
  read_result.buffer (packed l)

/-- The function `do_event_recv`: `reads` are the outcomes of the successive
`read` calls; once they are used up the non-blocking descriptor has nothing
left and answers `EAGAIN`.  Returns the `bool` result, the state and the sink
calls made. -/
def do_event_recv (add : Nat → String → Int) (base_path : String) :
    List read_result → recv_state → Except fault (Bool × recv_state × List sink_call)
  | [], st => Except.ok (true, st, [])
  | read_result.buffer buf :: rest, st =>
    if 0 < buf.len then
      match do_event_recv_loop add base_path buf buf.len 0 st with
      | Except.error f => Except.error f
      | Except.ok (st1, calls1) =>
        match do_event_recv add base_path rest st1 with
        | Except.error f => Except.error f
        | Except.ok (ok, st2, calls2) => Except.ok (ok, st2, calls1 ++ calls2)
    else Except.ok (true, st, [])
  | read_result.eagain :: _, st => Except.ok (true, st, [])
  | read_result.failure :: _, st =>
    Except.ok (false, st, [sink_call.one
      ⟨"e/sys/read@" ++ base_path, effect_type.other, path_type.watcher⟩])

/-- The function `system_fold`, `! (close(sr.watch_fd) && close(sr.event_fd))`:
the `bool` result and the descriptors `close` was called on, in call order.
`close fd` is the answer of the system call for `fd` (0 on success). -/
def system_fold (close : Int → Int) (sr : sys_resource_type) : Bool × List Int :=
  if close sr.watch_fd ≠ 0 then
    if close sr.event_fd ≠ 0 then (false, [sr.watch_fd, sr.event_fd])
    else (true, [sr.watch_fd, sr.event_fd])
  else (true, [sr.watch_fd])

end inotify

/-! ## The legacy Linux adapter (inotify) -/

namespace legacy_inotify

/-- The function `do_sys_resource_close`,
`!(close(sr.watch_fd) && close(sr.event_fd))`: the `bool` result and the
descriptors `close` was called on, in call order. -/
def do_sys_resource_close (close : Int → Int) (sr : inotify.sys_resource_type) :
    Bool × List Int :=
  if close sr.watch_fd ≠ 0 then
    if close sr.event_fd ≠ 0 then (false, [sr.watch_fd, sr.event_fd])
    else (true, [sr.watch_fd, sr.event_fd])
  else (true, [sr.watch_fd])

end legacy_inotify

/-! ## The devel Darwin adapter (FSEvents) -/

namespace darwin

open wtr

/-! Flag constants of `<CoreServices/FSEvents.h>`. -/

def kFSEventStreamEventFlagItemCreated : Nat := 0x00000100
def kFSEventStreamEventFlagItemRemoved : Nat := 0x00000200
def kFSEventStreamEventFlagItemInodeMetaMod : Nat := 0x00000400
def kFSEventStreamEventFlagItemRenamed : Nat := 0x00000800
def kFSEventStreamEventFlagItemModified : Nat := 0x00001000
def kFSEventStreamEventFlagItemFinderInfoMod : Nat := 0x00002000
def kFSEventStreamEventFlagItemChangeOwner : Nat := 0x00004000
def kFSEventStreamEventFlagItemXattrMod : Nat := 0x00008000
def kFSEventStreamEventFlagItemIsFile : Nat := 0x00010000
def kFSEventStreamEventFlagItemIsDir : Nat := 0x00020000
def kFSEventStreamEventFlagItemIsSymlink : Nat := 0x00040000
def kFSEventStreamEventFlagItemIsHardlink : Nat := 0x00100000
def kFSEventStreamEventFlagItemIsLastHardlink : Nat := 0x00200000

def fsev_flag_path_file : Nat := kFSEventStreamEventFlagItemIsFile
def fsev_flag_path_dir : Nat := kFSEventStreamEventFlagItemIsDir
def fsev_flag_path_sym_link : Nat := kFSEventStreamEventFlagItemIsSymlink
def fsev_flag_path_hard_link : Nat :=
  kFSEventStreamEventFlagItemIsHardlink ||| kFSEventStreamEventFlagItemIsLastHardlink
def fsev_flag_effect_create : Nat := kFSEventStreamEventFlagItemCreated
def fsev_flag_effect_remove : Nat := kFSEventStreamEventFlagItemRemoved
def fsev_flag_effect_modify : Nat :=
  kFSEventStreamEventFlagItemModified
  ||| kFSEventStreamEventFlagItemInodeMetaMod
  ||| kFSEventStreamEventFlagItemFinderInfoMod
  ||| kFSEventStreamEventFlagItemChangeOwner
  ||| kFSEventStreamEventFlagItemXattrMod
def fsev_flag_effect_rename : Nat := kFSEventStreamEventFlagItemRenamed
def fsev_flag_effect_any : Nat :=
  fsev_flag_effect_create
  ||| fsev_flag_effect_remove
  ||| fsev_flag_effect_modify
  ||| fsev_flag_effect_rename

/-- What a `ctx_type` points to: the set `*seen_created_paths` of path strings
and the path `*last_rename_path`.  The third member, the callback, is
represented by the list of sink calls the functions return. -/
structure ctx_type where
  seen_created_paths : Finset String
  last_rename_path : String
deriving DecidableEq

/-- A `CFStringRef`: the C string `CFStringGetCStringPtr` gives for it, or null. -/
abbrev cf_string := Option String

/-- A `CFDictionaryRef`: the value under the extended-data path key, or null. -/
abbrev cf_dictionary := Option cf_string

/-- A `CFArrayRef`: the value `CFArrayGetValueAtIndex` gives at an index, or null. -/
abbrev cf_array := Nat → Option cf_dictionary

/-- The function `path_from_event_at`: a null at any step gives the empty path. -/
def path_from_event_at (event_recv_paths : Option cf_array) (i : Nat) : String :=
  match event_recv_paths with
  | none => ""
  | some arr =>
    match arr i with
    | none => ""
    | some from_arr =>
      match from_arr with
      | none => ""
      | some from_dict =>
        match from_dict with
        | none => ""
        | some as_cstr => as_cstr

/-- The ternary chain of `event_recv_one` computing `pt` from the flags. -/
def path_type_of (flags : Nat) : path_type :=
  if flags &&& fsev_flag_path_file ≠ 0 then path_type.file
  else if flags &&& fsev_flag_path_dir ≠ 0 then path_type.dir
  else if flags &&& fsev_flag_path_sym_link ≠ 0 then path_type.sym_link
  else if flags &&& fsev_flag_path_hard_link ≠ 0 then path_type.hard_link
  else path_type.other

/-- The block `if (flags & fsev_flag_effect_create)` of `event_recv_one`. -/
def event_recv_one_create (ctx : ctx_type) (path : String) (pt : path_type) (flags : Nat) :
    ctx_type × List sink_call :=
  if flags &&& fsev_flag_effect_create ≠ 0 then
    if path ∉ ctx.seen_created_paths then
      (⟨insert path ctx.seen_created_paths, ctx.last_rename_path⟩,
        [sink_call.one ⟨path, effect_type.create, pt⟩])
    else (ctx, [])
  else (ctx, [])

/-- The block `if (flags & fsev_flag_effect_remove)` of `event_recv_one`. -/
def event_recv_one_remove (ctx : ctx_type) (path : String) (pt : path_type) (flags : Nat) :
    ctx_type × List sink_call :=
  if flags &&& fsev_flag_effect_remove ≠ 0 then
    if path ∈ ctx.seen_created_paths then
      (⟨ctx.seen_created_paths.erase path, ctx.last_rename_path⟩,
        [sink_call.one ⟨path, effect_type.destroy, pt⟩])
    else (ctx, [])
  else (ctx, [])

/-- The block `if (flags & fsev_flag_effect_modify)` of `event_recv_one`. -/
def event_recv_one_modify (ctx : ctx_type) (path : String) (pt : path_type) (flags : Nat) :
    ctx_type × List sink_call :=
  if flags &&& fsev_flag_effect_modify ≠ 0 then
    (ctx, [sink_call.one ⟨path, effect_type.modify, pt⟩])
  else (ctx, [])

/-- The block `if (flags & fsev_flag_effect_rename)` of `event_recv_one`.
`access p` is the answer of `access(p, F_OK)` at that moment. -/
def event_recv_one_rename (access : String → Int) (ctx : ctx_type) (path : String)
    (pt : path_type) (flags : Nat) : ctx_type × List sink_call :=
  if flags &&& fsev_flag_effect_rename ≠ 0 then
    let lr_path := ctx.last_rename_path
    let differs : Bool := decide (lr_path ≠ "") && !(fs.path_eq lr_path path)
    let missing : Bool := decide (access lr_path = -1)
    if differs && missing then
      (⟨ctx.seen_created_paths, ""⟩,
        [sink_call.pair ⟨lr_path, effect_type.rename, pt⟩ ⟨path, effect_type.rename, pt⟩])
    else (⟨ctx.seen_created_paths, path⟩, [])
  else (ctx, [])

/-- The function `event_recv_one`: the new state and the sink calls made, in call order. -/
def event_recv_one (access : String → Int) (ctx : ctx_type) (path : String) (flags : Nat) :
    ctx_type × List sink_call :=
  let pt := path_type_of flags
  if flags &&& fsev_flag_effect_any = 0 then
    (ctx, [sink_call.one ⟨path, effect_type.other, pt⟩])
  else
    let r1 := event_recv_one_create ctx path pt flags
    let r2 := event_recv_one_remove r1.1 path pt flags
    let r3 := event_recv_one_modify r2.1 path pt flags
    let r4 := event_recv_one_rename access r3.1 path pt flags
    (r4.1, r1.2 ++ r2.2 ++ r3.2 ++ r4.2)

/-- Arguments of one invocation of the stream callback `event_recv`.
`maybe_ctx` is `none` for a null context pointer and `some b` for a context
whose `callback` holds a target exactly when `b`; `paths` and `flags` are
`none` for null pointers. -/
structure event_recv_args where
  maybe_ctx : Option Bool
  count : Nat
  paths : Option cf_array
  flags : Option (Nat → Nat)

/-- The loop `for (i = 0; i < count; i++)` of `event_recv`, with `n` iterations
left from index `i`.  `access i` answers the `access` call made for event `i`. -/
def event_recv_loop (access : Nat → String → Int) (paths : Option cf_array)
    (flags : Nat → Nat) : Nat → Nat → ctx_type → ctx_type × List sink_call
  | 0, _, ctx => (ctx, [])
  | n + 1, i, ctx =>
    let r1 := event_recv_one (access i) ctx (path_from_event_at paths i) (flags i)
    let r2 := event_recv_loop access paths flags n (i + 1) r1.1
    (r2.1, r1.2 ++ r2.2)

/-- The stream callback `event_recv`: the check `ok`, then the loop. -/
def event_recv (access : Nat → String → Int) (ctx : ctx_type) (a : event_recv_args) :
    ctx_type × List sink_call :=
  match a.paths, a.flags, a.maybe_ctx with
  | some paths, some flags, some true => event_recv_loop access (some paths) flags a.count 0 ctx
  | _, _, _ => (ctx, [])

/-- The state `watch` starts the stream with: both `seen_created_paths` and
`last_rename_path` empty. -/
def watch_initial_ctx : ctx_type := ⟨∅, ""⟩

/-- The invocations of `event_recv` made by the stream during one `watch`, in
order, each with the answers `access` gives during it: the state left by one
invocation is the state the next one starts from. -/
def event_recv_seq : ctx_type → List ((Nat → String → Int) × event_recv_args) →
    ctx_type × List sink_call
  | ctx, [] => (ctx, [])
  | ctx, b :: bs =>
    let r1 := event_recv b.1 ctx b.2
    let r2 := event_recv_seq r1.1 bs
    (r2.1, r1.2 ++ r2.2)

/-! Reading the delivered sink calls. -/

/-- The sink call is a single `Create` event for the path `P`. -/
def is_create_of (P : String) : sink_call → Bool
  | sink_call.one e => decide (e.path = P ∧ e.effect = effect_type.create)
  | sink_call.pair _ _ => false

/-- The sink call is a single `Destroy` event for the path `P`. -/
def is_destroy_of (P : String) : sink_call → Bool
  | sink_call.one e => decide (e.path = P ∧ e.effect = effect_type.destroy)
  | sink_call.pair _ _ => false

/-- The sink call is a single `Modify` event. -/
def is_modify : sink_call → Bool
  | sink_call.one e => decide (e.effect = effect_type.modify)
  | sink_call.pair _ _ => false

/-- The sink call carries a rename: a single `Rename` event, or the paired form. -/
def is_rename : sink_call → Bool
  | sink_call.one e => decide (e.effect = effect_type.rename)
  | sink_call.pair _ _ => true

/-- The paths with a `Create` delivered and no `Destroy` delivered since,
after one more sink call, when they were `S` before it. -/
def seen_step (S : Finset String) : sink_call → Finset String
  | sink_call.one e =>
    if e.effect = effect_type.create then insert e.path S
    else if e.effect = effect_type.destroy then S.erase e.path
    else S
  | sink_call.pair _ _ => S

/-- The paths with a `Create` delivered and no `Destroy` delivered since,
after the sink calls `t`, when they were `S` before them. -/
def seen_after (S : Finset String) : List sink_call → Finset String
  | [] => S
  | c :: t => seen_after (seen_step S c) t

/-- Every `Create` in `t` is for a path outside, and every `Destroy` for a
path inside, the paths created and not destroyed up to that call. -/
def alternates (S : Finset String) : List sink_call → Prop
  | [] => True
  | sink_call.one e :: t =>
    (e.effect = effect_type.create → e.path ∉ S)
    ∧ (e.effect = effect_type.destroy → e.path ∈ S)
    ∧ alternates (seen_step S (sink_call.one e)) t
  | sink_call.pair a b :: t => alternates (seen_step S (sink_call.pair a b)) t

/-- The calls `r.2` made from the state `ctx` alternate, and the set of the
state `r.1` reached is the set of `ctx` advanced over the calls. -/
def follows (ctx : ctx_type) (r : ctx_type × List sink_call) : Prop :=
  alternates ctx.seen_created_paths r.2
  ∧ r.1.seen_created_paths = seen_after ctx.seen_created_paths r.2

/-- One event as `event_recv` hands it to `event_recv_one`: the path, the flag
word, and the answers `access` gives while the event is processed. -/
structure fs_event where
  access : String → Int
  path : String
  flags : Nat

/-- The function `event_recv_one` applied to a list of events in turn. -/
def event_recv_list : ctx_type → List fs_event → ctx_type × List sink_call
  | ctx, [] => (ctx, [])
  | ctx, e :: es =>
    let r1 := event_recv_one e.access ctx e.path e.flags
    let r2 := event_recv_list r1.1 es
    (r2.1, r1.2 ++ r2.2)

/-- The events the loop of `event_recv` hands to `event_recv_one`, with `n`
iterations left from index `i`. -/
def loop_events (access : Nat → String → Int) (paths : Option cf_array)
    (flags : Nat → Nat) : Nat → Nat → List fs_event
  | 0, _ => []
  | n + 1, i =>
    ⟨access i, path_from_event_at paths i, flags i⟩ :: loop_events access paths flags n (i + 1)

/-- The events one invocation of `event_recv` hands to `event_recv_one`: none
when the check `ok` fails. -/
def recv_events (access : Nat → String → Int) (a : event_recv_args) : List fs_event :=
  match a.paths, a.flags, a.maybe_ctx with
  | some paths, some flags, some true => loop_events access (some paths) flags a.count 0
  | _, _, _ => []

/-- The events a sequence of invocations of `event_recv` hands to
`event_recv_one`, in processing order. -/
def seq_events : List ((Nat → String → Int) × event_recv_args) → List fs_event
  | [] => []
  | b :: bs => recv_events b.1 b.2 ++ seq_events bs

end darwin

/-! ## Setup, initial map and event loop of the Linux adapters -/

namespace wtr

/-- The events one sink call carries: the event, or both events of a pair. -/
def events_of : sink_call → List event
  | sink_call.one e => [e]
  | sink_call.pair e_from e_to => [e_from, e_to]

/-- The diagnostic tokens of the adapters, as listed for the sink's callers. -/
def diagnostic_tokens : List String :=
  ["e/sys/inotify_init", "e/sys/epoll_create", "e/sys/epoll_ctl", "e/sys/epoll_wait@",
   "e/sys/read@", "e/sys/close@", "e/self/sys_resource@", "e/self/path_map@",
   "e/self/event_recv@", "e/self/overflow@", "w/sys/not_watched@"]

/-- The tokens the devel Linux adapter passes to the sink: those of
`system_unfold`, `path_map`, `do_event_recv` and `watch`. -/
def emitted_tokens : List String :=
  ["e/sys/inotify_init", "e/sys/epoll_create", "e/sys/epoll_ctl", "e/sys/epoll_wait@",
   "e/sys/read@", "e/self/sys_resource@", "e/self/path_map@",
   "e/self/event_recv@", "e/self/overflow@", "w/sys/not_watched@"]

/-- The path equals, or starts with, one of the tokens `toks`. -/
def carries_token (toks : List String) (p : String) : Prop :=
  ∃ tok ∈ toks, tok.data <+: p.data

/-- Every event of the sink call that has the kind `watcher` carries one of the
tokens `toks`. -/
def watcher_isolated (toks : List String) (c : sink_call) : Prop :=
  ∀ e ∈ events_of c, e.path_kind = path_type.watcher → carries_token toks e.path

/-- The sink call is a single event of the kind `watcher`: a diagnostic. -/
def is_diagnostic : sink_call → Bool
  | sink_call.one e => decide (e.path_kind = path_type.watcher)
  | sink_call.pair _ _ => false

end wtr

namespace inotify

open wtr

/-- The constant `EPOLLIN` of `<sys/epoll.h>`. -/
def EPOLLIN : Nat := 0x001

/-- Answers of the three system calls `system_unfold` makes: `inotify_init1`
(or `inotify_init`), `epoll_create1` (or `epoll_create`) and `epoll_ctl`. -/
structure sys_answers where
  inotify_init : Int
  epoll_create : Int
  epoll_ctl : Int
deriving DecidableEq

/-- The lambda `do_error` of `system_unfold`: one diagnostic call and an invalid record. -/
def system_unfold_do_error (msg : String) (watch_fd event_fd : Int) :
    sys_resource_type × List sink_call :=
  (⟨false, watch_fd, event_fd, 0, watch_fd⟩,
    [sink_call.one ⟨msg, effect_type.other, path_type.watcher⟩])

/-- The function `system_unfold`: the resource record and the sink calls made. -/
def system_unfold (sys : sys_answers) : sys_resource_type × List sink_call :=
  let watch_fd := sys.inotify_init
  if 0 ≤ watch_fd then
    let event_fd := sys.epoll_create
    if 0 ≤ event_fd then
      if 0 ≤ sys.epoll_ctl then (⟨true, watch_fd, event_fd, EPOLLIN, watch_fd⟩, [])
      else system_unfold_do_error "e/sys/epoll_ctl" watch_fd event_fd
    else system_unfold_do_error "e/sys/epoll_create" watch_fd event_fd
  else system_unfold_do_error "e/sys/inotify_init" watch_fd (-1)

/-- One step of the range-`for` over `recursive_directory_iterator(base_path)`
in `path_map`: an entry with the answer of `fs::is_directory` for it, or an
exception thrown by the iterator or by `fs::is_directory`. -/
inductive walk_item where
  | entry (path : String) (is_directory : Bool)
  | throws
deriving DecidableEq

/-- What `path_map` sees of the filesystem: the answer of
`fs::is_directory(base_path)` (`none` when it throws) and the steps of the
recursive walk of the base directory. -/
structure fs_view where
  base_is_directory : Option Bool
  walk : List walk_item
deriving DecidableEq

/-- The lambda `do_mark` of `path_map`: adds a watch on `d` and, for a positive
descriptor, emplaces the entry; the `bool` result and the new state. -/
def do_mark (add : Nat → String → Int) (st : recv_state) (d : String) : Bool × recv_state :=
  let r := inotify_add_watch (add st.adds d) st.active
  if 0 < r.1 then (true, ⟨pm_emplace st.pm r.1 d, r.2, st.adds + 1⟩)
  else (false, ⟨st.pm, r.2, st.adds + 1⟩)

/-- The range-`for` of `path_map` over the walk of the base directory; an
exception ends it (the `catch (...)` swallows it). -/
def path_map_walk (add : Nat → String → Int) (base_path : String) :
    List walk_item → recv_state → recv_state × List sink_call
  | [], st => (st, [])
  | walk_item.throws :: _, st => (st, [])
  | walk_item.entry d is_dir :: rest, st =>
    if is_dir then
      let m := do_mark add st d
      if m.1 then path_map_walk add base_path rest m.2
      else
        let r := path_map_walk add base_path rest m.2
        (r.1, sink_call.one ⟨"w/sys/not_watched@" ++ base_path ++ "@" ++ d,
                effect_type.other, path_type.watcher⟩ :: r.2)
    else path_map_walk add base_path rest st

/-- The function `path_map`, on a fresh inotify instance (no active watch, no
`inotify_add_watch` call made yet): the state holding the map built, and the
sink calls made. -/
def path_map (add : Nat → String → Int) (base_path : String) (fsv : fs_view)
    (sr : sys_resource_type) : recv_state × List sink_call :=
  if sr.valid then
    let m := do_mark add ⟨[], ∅, 0⟩ base_path
    if m.1 then
      match fsv.base_is_directory with
      | some true => path_map_walk add base_path fsv.walk m.2
      | _ => (m.2, [])
    else (m.2, [])
  else (⟨[], ∅, 0⟩, [])

/-- Outcome of one `epoll_wait(sr.event_fd, event_recv_list, 1, delay_ms)` in
the loop of `watch`: a negative count; a zero count (timeout); or the count 1
with the ready descriptor `fd`, together with the outcomes of the reads
`do_event_recv` then makes. -/
inductive epoll_outcome where
  | failure
  | timeout
  | ready (fd : Int) (reads : List read_result)

/-- What one invocation of `watch` leaves: the value returned (`none` where the
source returns the value of the lambda `close`, which yields no `bool`), the
sink calls made, and the descriptors `close` was called on. -/
structure watch_result where
  ret : Option Bool
  calls : List sink_call
  closed : List Int
deriving DecidableEq

/-- The lambda `do_error` of `watch`, called with the lambda `close`: one
diagnostic call, then `system_fold` (its result is dropped), then `false`. -/
def watch_do_error (close : Int → Int) (sr : sys_resource_type) (path : String)
    (msg : String) : watch_result :=
  ⟨some false, [sink_call.one ⟨msg ++ path, effect_type.other, path_type.watcher⟩],
    (system_fold close sr).2⟩

/-- The loop `while (is_living)` of `watch`: one element of `iterations` for
each turn made while `is_living` holds; after them `is_living` is false and
`watch` returns through `close()`. -/
def watch_loop (add : Nat → String → Int) (close : Int → Int) (sr : sys_resource_type)
    (path : String) : List epoll_outcome → recv_state → Except fault watch_result
  | [], _ => Except.ok ⟨none, [], (system_fold close sr).2⟩
  | epoll_outcome.failure :: _, _ =>
    Except.ok (watch_do_error close sr path "e/sys/epoll_wait@")
  | epoll_outcome.timeout :: rest, st => watch_loop add close sr path rest st
  | epoll_outcome.ready fd reads :: rest, st =>
    if fd = sr.watch_fd then
      match do_event_recv add path reads st with
      | Except.error f => Except.error f
      | Except.ok (true, st1, calls1) =>
        match watch_loop add close sr path rest st1 with
        | Except.error f => Except.error f
        | Except.ok r => Except.ok ⟨r.ret, calls1 ++ r.calls, r.closed⟩
      | Except.ok (false, _, calls1) =>
        Except.ok ⟨some false,
          calls1 ++ (watch_do_error close sr path "e/self/event_recv@").calls,
          (watch_do_error close sr path "e/self/event_recv@").closed⟩
    else watch_loop add close sr path rest st

/-- The function `watch` of the devel Linux adapter. -/
def watch (sys : sys_answers) (add : Nat → String → Int) (fsv : fs_view)
    (close : Int → Int) (path : String) (iterations : List epoll_outcome) :
    Except fault watch_result :=
  let u := system_unfold sys
  let sr := u.1
  let p := path_map add path fsv sr
  let pm := p.1
  let setup := u.2 ++ p.2
  if sr.valid then
    if 0 < pm.pm.length then
      match watch_loop add close sr path iterations pm with
      | Except.error f => Except.error f
      | Except.ok r => Except.ok ⟨r.ret, setup ++ r.calls, r.closed⟩
    else
      Except.ok ⟨some false,
        setup ++ (watch_do_error close sr path "e/self/path_map@").calls,
        (watch_do_error close sr path "e/self/path_map@").closed⟩
  else
    Except.ok ⟨some false,
      setup ++ (watch_do_error close sr path "e/self/sys_resource@").calls,
      (watch_do_error close sr path "e/self/sys_resource@").closed⟩

/-- The keys of the map are exactly the watch descriptors active in the
inotify instance. -/
def keys_eq_active (st : recv_state) : Prop :=
  (st.pm.map Prod.fst).toFinset = st.active

end inotify

namespace legacy_inotify

open wtr inotify

/-- The ternary `kind` of the legacy `do_event_recv`. -/
def kind_of (mask : Nat) : path_type :=
  if mask &&& IN_ISDIR ≠ 0 then path_type.dir else path_type.file

/-- The ternary chain `what` of the legacy `do_event_recv`. -/
def what_of (mask : Nat) : effect_type :=
  if mask &&& IN_CREATE ≠ 0 then effect_type.create
  else if mask &&& IN_DELETE ≠ 0 then effect_type.destroy
  else if mask &&& IN_MOVE ≠ 0 then effect_type.rename
  else if mask &&& IN_MODIFY ≠ 0 then effect_type.modify
  else effect_type.other

/-- The body of the `for` loop of the legacy `do_event_recv`, for the record
`ev`: the new state and the sink calls made. -/
def do_event_recv_record (add : Nat → String → Int) (base_path : String)
    (st : recv_state) (ev : inotify_event) : Except fault (recv_state × List sink_call) :=
  if ev.mask &&& IN_Q_OVERFLOW = 0 then
    match pm_find st.pm ev.wd with
    | none => Except.error fault.end_iterator_deref
    | some parent =>
      let path := fs.append parent ev.name
      let kind := kind_of ev.mask
      let what := what_of ev.mask
      let calls := [sink_call.one ⟨path, what, kind⟩]
      if kind = path_type.dir ∧ what = effect_type.create then
        let r := inotify_add_watch (add st.adds path) st.active
        Except.ok (⟨pm_assign st.pm r.1 path, r.2, st.adds + 1⟩, calls)
      else if kind = path_type.dir ∧ what = effect_type.destroy then
        Except.ok (⟨pm_erase st.pm ev.wd, inotify_rm_watch ev.wd st.active, st.adds⟩, calls)
      else Except.ok (st, calls)
  else
    Except.ok (st, [sink_call.one
      ⟨fs.append "e/self/overflow@" base_path, effect_type.other, path_type.watcher⟩])

end legacy_inotify

/-! ## Directory options, the drain step, the legacy record loop, and reading a Darwin run -/

namespace fs

/-- The enumerator `directory_options::none`. -/
def directory_options_none : Nat := 0

/-- The enumerator `directory_options::follow_directory_symlink`. -/
def follow_directory_symlink : Nat := 1

/-- The enumerator `directory_options::skip_permission_denied`. -/
def skip_permission_denied : Nat := 2

end fs

namespace inotify

open wtr

/-- The constant `IN_IGNORED` of `<sys/inotify.h>`: the kernel queues a record
with this mask for a descriptor once its watch is removed. -/
def IN_IGNORED : Nat := 0x00008000

/-- The constant `fs_dir_opt` of `path_map`:
`dopt::skip_permission_denied & dopt::follow_directory_symlink`. -/
def fs_dir_opt : Nat := fs.skip_permission_denied &&& fs.follow_directory_symlink

/-- The sink calls one iteration of the record loop makes, from the state `p.1`
on what it finds at the record pointer, `p.2`; none when the lookup faults. -/
def record_calls (add : Nat → String → Int) (base_path : String)
    (p : recv_state × inotify_event) : List sink_call :=
  match do_event_recv_record add base_path p.1 p.2 with
  | Except.error _ => []
  | Except.ok (_, calls) => calls

/-- The iterations the record loop makes on the buffer `buf`, in order: for
each, the state the loop body starts from and what it finds at the record
pointer.  The list ends where the loop ends or the loop body faults. -/
def loop_steps (add : Nat → String → Int) (base_path : String) (buf : read_buffer) :
    Nat → Nat → recv_state → List (recv_state × inotify_event)
  | 0, _, _ => []
  | fuel + 1, off, st =>
    if off < buf.len then
      (st, buf.this_event off) ::
        (match do_event_recv_record add base_path st (buf.this_event off) with
        | Except.error _ => []
        | Except.ok (st1, _) => loop_steps add base_path buf fuel (off + this_event_stride) st1)
    else []

/-- The iterations the record loops of one `do_event_recv` make, over its
successive reads, in order. -/
def recv_steps (add : Nat → String → Int) (base_path : String) :
    List read_result → recv_state → List (recv_state × inotify_event)
  | [], _ => []
  | read_result.buffer buf :: rest, st =>
    if 0 < buf.len then
      loop_steps add base_path buf buf.len 0 st ++
        (match do_event_recv_loop add base_path buf buf.len 0 st with
        | Except.error _ => []
        | Except.ok (st1, _) => recv_steps add base_path rest st1)
    else []
  | read_result.eagain :: _, _ => []
  | read_result.failure :: _, _ => []

end inotify

namespace legacy_inotify

open wtr inotify

/-- The constant `fs_dir_opt` of `do_path_map_create`:
`dopt::skip_permission_denied & dopt::follow_directory_symlink`. -/
def fs_dir_opt : Nat := fs.skip_permission_denied &&& fs.follow_directory_symlink

/-- Bytes the increment `this_event += this_event->len` of the legacy `for`
loop moves the record pointer: `len` elements of `sizeof(inotify_event)` bytes. -/
def this_event_step (ev : inotify_event) : Nat := ev.len * sizeof_inotify_event

/-- The loop `for (this_event = buf; this_event < buf + read_len;
this_event += this_event->len)` of the legacy `do_event_recv`, from the record
pointer at byte offset `off`, with `fuel` iterations allowed. -/
def do_event_recv_loop (add : Nat → String → Int) (base_path : String)
    (buf : read_buffer) :
    Nat → Nat → recv_state → Except fault (recv_state × List sink_call)
  | 0, off, st => if off < buf.len then Except.error fault.out_of_fuel else Except.ok (st, [])
  | fuel + 1, off, st =>
    if off < buf.len then
      match do_event_recv_record add base_path st (buf.this_event off) with
      | Except.error f => Except.error f
      | Except.ok (st1, calls1) =>
        match do_event_recv_loop add base_path buf fuel
            (off + this_event_step (buf.this_event off)) st1 with
        | Except.error f => Except.error f
        | Except.ok (st2, calls2) => Except.ok (st2, calls1 ++ calls2)
    else Except.ok (st, [])

end legacy_inotify

namespace darwin

open wtr

/-- The `Create` and `Destroy` events for the path `P` among the sink calls,
in delivery order: `true` for a `Create`, `false` for a `Destroy`. -/
def create_destroy_trace (P : String) : List sink_call → List Bool
  | [] => []
  | c :: t =>
    if is_create_of P c then true :: create_destroy_trace P t
    else if is_destroy_of P c then false :: create_destroy_trace P t
    else create_destroy_trace P t

/-- The list alternates strictly, its first element being `expect`. -/
def strictly_alternates : Bool → List Bool → Bool
  | _, [] => true
  | expect, b :: t => (b == expect) && strictly_alternates (!expect) t

/-- The last element of the list, `d` for the empty list. -/
def last_or (d : Bool) : List Bool → Bool
  | [] => d
  | b :: t => last_or b t

/-- The events with index `0 .. count - 1` of one invocation of `event_recv`,
in index order. -/
def indexed_events (access : Nat → String → Int) (paths : Option cf_array)
    (flags : Nat → Nat) (count : Nat) : List fs_event :=
  (List.range count).map (fun i => ⟨access i, path_from_event_at paths i, flags i⟩)

end darwin

/-! ## Auxiliary lemmas -/

namespace aux

theorem lor_eq_zero (a b : Nat) (h : a ||| b = 0) : a = 0 ∧ b = 0 := by
  constructor
  · apply Nat.eq_of_testBit_eq
    intro i
    have h2 := congrArg (fun n => Nat.testBit n i) h
    simp only [Nat.testBit_or, Nat.zero_testBit, Bool.or_eq_false_iff] at h2
    simp [h2.1]
  · apply Nat.eq_of_testBit_eq
    intro i
    have h2 := congrArg (fun n => Nat.testBit n i) h
    simp only [Nat.testBit_or, Nat.zero_testBit, Bool.or_eq_false_iff] at h2
    simp [h2.2]

theorem land_lor_ne_zero (x a b : Nat) :
    x &&& (a ||| b) ≠ 0 ↔ x &&& a ≠ 0 ∨ x &&& b ≠ 0 := by
  rw [Nat.and_or_distrib_left]
  constructor
  · intro h
    by_contra hc
    push_neg at hc
    apply h
    rw [hc.1, hc.2]
    rfl
  · intro h hz
    have := lor_eq_zero _ _ hz
    rcases h with h | h
    · exact h this.1
    · exact h this.2

end aux

namespace inotify

open wtr

end inotify

namespace darwin

open wtr

theorem effect_any_iff (flags : Nat) :
    flags &&& fsev_flag_effect_any ≠ 0 ↔
      flags &&& fsev_flag_effect_create ≠ 0 ∨ flags &&& fsev_flag_effect_remove ≠ 0
      ∨ flags &&& fsev_flag_effect_modify ≠ 0 ∨ flags &&& fsev_flag_effect_rename ≠ 0 := by
  unfold fsev_flag_effect_any
  rw [aux.land_lor_ne_zero, aux.land_lor_ne_zero, aux.land_lor_ne_zero]
  tauto

theorem effect_modify_iff (flags : Nat) :
    flags &&& fsev_flag_effect_modify ≠ 0 ↔
      flags &&& kFSEventStreamEventFlagItemModified ≠ 0
      ∨ flags &&& kFSEventStreamEventFlagItemInodeMetaMod ≠ 0
      ∨ flags &&& kFSEventStreamEventFlagItemFinderInfoMod ≠ 0
      ∨ flags &&& kFSEventStreamEventFlagItemChangeOwner ≠ 0
      ∨ flags &&& kFSEventStreamEventFlagItemXattrMod ≠ 0 := by
  unfold fsev_flag_effect_modify
  rw [aux.land_lor_ne_zero, aux.land_lor_ne_zero, aux.land_lor_ne_zero, aux.land_lor_ne_zero]
  tauto

theorem seen_after_append (S : Finset String) (a b : List sink_call) :
    seen_after S (a ++ b) = seen_after (seen_after S a) b := by
  induction a generalizing S with
  | nil => rfl
  | cons c t ih => simp [seen_after, ih]

theorem alternates_append (S : Finset String) (a b : List sink_call) :
    alternates S (a ++ b) ↔ alternates S a ∧ alternates (seen_after S a) b := by
  induction a generalizing S with
  | nil => simp [alternates, seen_after]
  | cons c t ih =>
    cases c with
    | one e => simp [alternates, seen_after, ih, and_assoc]
    | pair x y => simp [alternates, seen_after, ih]

theorem follows_append (c : ctx_type) (r1 r2 : ctx_type × List sink_call)
    (h1 : follows c r1) (h2 : follows r1.1 r2) : follows c (r2.1, r1.2 ++ r2.2) := by
  unfold follows at *
  refine ⟨(alternates_append _ _ _).2 ⟨h1.1, ?_⟩, ?_⟩
  · rw [← h1.2]; exact h2.1
  · rw [seen_after_append, ← h1.2]; exact h2.2

theorem follows_create (ctx : ctx_type) (path : String) (pt : path_type) (flags : Nat) :
    follows ctx (event_recv_one_create ctx path pt flags) := by
  unfold follows event_recv_one_create
  split_ifs <;> simp_all [alternates, seen_after, seen_step]

theorem follows_remove (ctx : ctx_type) (path : String) (pt : path_type) (flags : Nat) :
    follows ctx (event_recv_one_remove ctx path pt flags) := by
  unfold follows event_recv_one_remove
  split_ifs <;> simp_all [alternates, seen_after, seen_step]

theorem follows_modify (ctx : ctx_type) (path : String) (pt : path_type) (flags : Nat) :
    follows ctx (event_recv_one_modify ctx path pt flags) := by
  unfold follows event_recv_one_modify
  split_ifs <;> simp_all [alternates, seen_after, seen_step]

theorem follows_rename (access : String → Int) (ctx : ctx_type) (path : String)
    (pt : path_type) (flags : Nat) :
    follows ctx (event_recv_one_rename access ctx path pt flags) := by
  simp only [follows, event_recv_one_rename]
  split_ifs <;> simp [alternates, seen_after, seen_step]

theorem follows_one (access : String → Int) (ctx : ctx_type) (path : String) (flags : Nat) :
    follows ctx (event_recv_one access ctx path flags) := by
  unfold event_recv_one
  split_ifs with h
  · simp [follows, alternates, seen_after, seen_step]
  · simp only [List.append_assoc]
    exact follows_append _ _ _ (follows_create _ _ _ _)
      (follows_append _ _ _ (follows_remove _ _ _ _)
        (follows_append _ _ _ (follows_modify _ _ _ _) (follows_rename _ _ _ _ _)))

theorem follows_loop (access : Nat → String → Int) (paths : Option cf_array)
    (flags : Nat → Nat) (n i : Nat) (ctx : ctx_type) :
    follows ctx (event_recv_loop access paths flags n i ctx) := by
  induction n generalizing i ctx with
  | zero => simp [event_recv_loop, follows, alternates, seen_after]
  | succ n ih =>
    simp only [event_recv_loop]
    exact follows_append _ _ _ (follows_one _ _ _ _) (ih _ _)

theorem follows_recv (access : Nat → String → Int) (ctx : ctx_type) (a : event_recv_args) :
    follows ctx (event_recv access ctx a) := by
  unfold event_recv
  split
  · exact follows_loop _ _ _ _ _ _
  · simp [follows, alternates, seen_after]

theorem follows_seq (ctx : ctx_type) (bs : List ((Nat → String → Int) × event_recv_args)) :
    follows ctx (event_recv_seq ctx bs) := by
  induction bs generalizing ctx with
  | nil => simp [event_recv_seq, follows, alternates, seen_after]
  | cons b bs ih =>
    simp only [event_recv_seq]
    exact follows_append _ _ _ (follows_recv _ _ _) (ih _)


/-! Facts about a list of sink calls. -/

theorem mem_seen_step_of_create (S : Finset String) (P : String) (c : sink_call)
    (h : is_create_of P c = true) : P ∈ seen_step S c := by
  cases c with
  | one e =>
    simp only [is_create_of, decide_eq_true_eq] at h
    simp [seen_step, h.2, ← h.1]
  | pair a b => simp [is_create_of] at h

theorem mem_seen_step_of_mem (S : Finset String) (P : String) (c : sink_call)
    (hP : P ∈ S) (h : is_destroy_of P c = false) : P ∈ seen_step S c := by
  cases c with
  | one e =>
    simp only [is_destroy_of, decide_eq_false_iff_not, not_and] at h
    simp only [seen_step]
    split_ifs with h1 h2
    · exact Finset.mem_insert_of_mem hP
    · refine Finset.mem_erase.2 ⟨fun he => h he.symm h2, hP⟩
    · exact hP
  | pair a b => exact hP

theorem mem_of_mem_seen_step (S : Finset String) (P : String) (c : sink_call)
    (h : P ∈ seen_step S c) : P ∈ S ∨ is_create_of P c = true := by
  cases c with
  | one e =>
    simp only [seen_step] at h
    split_ifs at h with h1 h2
    · rcases Finset.mem_insert.1 h with h | h
      · right; simp [is_create_of, h, h1]
      · left; exact h
    · left; exact (Finset.mem_erase.1 h).2
    · left; exact h
  | pair a b => left; exact h

/-- A path in the set after the calls `t` was in the set before them or has a `Create` in `t`. -/
theorem mem_seen_after (S : Finset String) (P : String) (t : List sink_call)
    (h : P ∈ seen_after S t) : P ∈ S ∨ ∃ c ∈ t, is_create_of P c = true := by
  induction t generalizing S with
  | nil => left; exact h
  | cons c t ih =>
    rcases ih _ h with h1 | ⟨c', hc', hcr⟩
    · rcases mem_of_mem_seen_step S P c h1 with h2 | h2
      · left; exact h2
      · right; exact ⟨c, List.mem_cons_self _ _, h2⟩
    · right; exact ⟨c', List.mem_cons_of_mem _ hc', hcr⟩

/-- A path in the set stays in it over calls with no `Destroy` for it. -/
theorem mem_seen_after_of_mem (S : Finset String) (P : String) (t : List sink_call)
    (hP : P ∈ S) (h : ∀ c ∈ t, is_destroy_of P c = false) : P ∈ seen_after S t := by
  induction t generalizing S with
  | nil => exact hP
  | cons c t ih =>
    exact ih _ (mem_seen_step_of_mem S P c hP (h c (List.mem_cons_self _ _)))
      (fun c' hc' => h c' (List.mem_cons_of_mem _ hc'))

/-- A path with a `Create` in `t` and no `Destroy` in `t` is in the set after `t`. -/
theorem mem_seen_after_of_create (S : Finset String) (P : String) (t : List sink_call)
    (hc : ∃ c ∈ t, is_create_of P c = true) (h : ∀ c ∈ t, is_destroy_of P c = false) :
    P ∈ seen_after S t := by
  induction t generalizing S with
  | nil => obtain ⟨c, hc, _⟩ := hc; cases hc
  | cons d t ih =>
    have hrest : ∀ c ∈ t, is_destroy_of P c = false :=
      fun c' hc' => h c' (List.mem_cons_of_mem _ hc')
    obtain ⟨c, hmem, hcr⟩ := hc
    rcases List.mem_cons.1 hmem with rfl | hmem
    · exact mem_seen_after_of_mem _ P t (mem_seen_step_of_create S P c hcr) hrest
    · exact ih _ ⟨c, hmem, hcr⟩ hrest

/-- With no `Destroy` for `P` among alternating calls, the `Create` calls for
`P` number one when `P` enters the set and none otherwise. -/
theorem countP_create (S : Finset String) (P : String) (t : List sink_call)
    (halt : alternates S t) (h : ∀ c ∈ t, is_destroy_of P c = false) :
    t.countP (is_create_of P) + (if P ∈ S then 1 else 0)
      = if P ∈ seen_after S t then 1 else 0 := by
  induction t generalizing S with
  | nil => simp [seen_after]
  | cons c t ih =>
    have hrest : ∀ c ∈ t, is_destroy_of P c = false :=
      fun c' hc' => h c' (List.mem_cons_of_mem _ hc')
    have hc := h c (List.mem_cons_self _ _)
    cases c with
    | pair a b =>
      have := ih S (by simpa [alternates, seen_step] using halt) hrest
      simpa [List.countP_cons, is_create_of, seen_after, seen_step] using this
    | one e =>
      simp only [alternates] at halt
      obtain ⟨hcr, hde, htl⟩ := halt
      have hih := ih _ htl hrest
      simp only [seen_after]
      rw [← hih, List.countP_cons]
      by_cases hE : e.path = P ∧ e.effect = effect_type.create
      · obtain ⟨hp, he⟩ := hE
        have hnot : P ∉ S := hp ▸ hcr he
        simp [is_create_of, hp, he, seen_step, hnot]
      · have hcf : is_create_of P (sink_call.one e) = false := by
          simp only [is_create_of, decide_eq_false_iff_not]; exact hE
        have hiff : P ∈ seen_step S (sink_call.one e) ↔ P ∈ S := by
          constructor
          · intro hm
            rcases mem_of_mem_seen_step S P _ hm with h1 | h1
            · exact h1
            · rw [hcf] at h1; cases h1
          · intro hm; exact mem_seen_step_of_mem S P _ hm hc
        simp [hcf, hiff]


/-! What each block of `event_recv_one` delivers. -/

theorem create_calls (ctx : ctx_type) (path : String) (pt : path_type) (flags : Nat) :
    (event_recv_one_create ctx path pt flags).2
      = if flags &&& fsev_flag_effect_create ≠ 0 ∧ path ∉ ctx.seen_created_paths
        then [sink_call.one ⟨path, effect_type.create, pt⟩] else [] := by
  unfold event_recv_one_create
  split_ifs <;> simp_all

theorem remove_calls (ctx : ctx_type) (path : String) (pt : path_type) (flags : Nat) :
    (event_recv_one_remove ctx path pt flags).2
      = if flags &&& fsev_flag_effect_remove ≠ 0 ∧ path ∈ ctx.seen_created_paths
        then [sink_call.one ⟨path, effect_type.destroy, pt⟩] else [] := by
  unfold event_recv_one_remove
  split_ifs <;> simp_all

theorem modify_calls (ctx : ctx_type) (path : String) (pt : path_type) (flags : Nat) :
    (event_recv_one_modify ctx path pt flags).2
      = if flags &&& fsev_flag_effect_modify ≠ 0
        then [sink_call.one ⟨path, effect_type.modify, pt⟩] else [] := by
  unfold event_recv_one_modify
  split_ifs <;> simp_all

theorem rename_calls (access : String → Int) (ctx : ctx_type) (path : String)
    (pt : path_type) (flags : Nat) :
    (event_recv_one_rename access ctx path pt flags).2
      = if flags &&& fsev_flag_effect_rename ≠ 0
          ∧ (ctx.last_rename_path ≠ "" ∧ fs.path_eq ctx.last_rename_path path = false
            ∧ access ctx.last_rename_path = -1)
        then [sink_call.pair ⟨ctx.last_rename_path, effect_type.rename, pt⟩
                ⟨path, effect_type.rename, pt⟩]
        else [] := by
  simp only [event_recv_one_rename]
  split_ifs <;> simp_all

theorem create_slot (ctx : ctx_type) (path : String) (pt : path_type) (flags : Nat) :
    (event_recv_one_create ctx path pt flags).1.last_rename_path = ctx.last_rename_path := by
  unfold event_recv_one_create
  split_ifs <;> rfl

theorem remove_slot (ctx : ctx_type) (path : String) (pt : path_type) (flags : Nat) :
    (event_recv_one_remove ctx path pt flags).1.last_rename_path = ctx.last_rename_path := by
  unfold event_recv_one_remove
  split_ifs <;> rfl

theorem modify_state (ctx : ctx_type) (path : String) (pt : path_type) (flags : Nat) :
    (event_recv_one_modify ctx path pt flags).1 = ctx := by
  unfold event_recv_one_modify
  split_ifs <;> rfl

theorem rename_slot (access : String → Int) (ctx : ctx_type) (path : String)
    (pt : path_type) (flags : Nat) (h : flags &&& fsev_flag_effect_rename ≠ 0) :
    (event_recv_one_rename access ctx path pt flags).1.last_rename_path
      = if ctx.last_rename_path ≠ "" ∧ fs.path_eq ctx.last_rename_path path = false
            ∧ access ctx.last_rename_path = -1
        then "" else path := by
  simp only [event_recv_one_rename]
  split_ifs <;> simp_all

/-- The sink calls of one event that has an effect flag: the four blocks in order. -/
theorem one_calls (access : String → Int) (ctx : ctx_type) (path : String) (flags : Nat)
    (h : flags &&& fsev_flag_effect_any ≠ 0) :
    (event_recv_one access ctx path flags).2
      = (if flags &&& fsev_flag_effect_create ≠ 0 ∧ path ∉ ctx.seen_created_paths
          then [sink_call.one ⟨path, effect_type.create, path_type_of flags⟩] else [])
        ++ (if flags &&& fsev_flag_effect_remove ≠ 0
              ∧ path ∈ (event_recv_one_create ctx path (path_type_of flags)
                          flags).1.seen_created_paths
          then [sink_call.one ⟨path, effect_type.destroy, path_type_of flags⟩] else [])
        ++ (if flags &&& fsev_flag_effect_modify ≠ 0
          then [sink_call.one ⟨path, effect_type.modify, path_type_of flags⟩] else [])
        ++ (if flags &&& fsev_flag_effect_rename ≠ 0
              ∧ (ctx.last_rename_path ≠ "" ∧ fs.path_eq ctx.last_rename_path path = false
                ∧ access ctx.last_rename_path = -1)
          then [sink_call.pair ⟨ctx.last_rename_path, effect_type.rename, path_type_of flags⟩
                  ⟨path, effect_type.rename, path_type_of flags⟩]
          else []) := by
  unfold event_recv_one
  rw [if_neg h]
  simp only [create_calls, remove_calls, modify_calls, rename_calls, modify_state,
    remove_slot, create_slot]

/-- The slot after one event that has the renamed flag. -/
theorem one_slot (access : String → Int) (ctx : ctx_type) (path : String) (flags : Nat)
    (h : flags &&& fsev_flag_effect_rename ≠ 0) :
    (event_recv_one access ctx path flags).1.last_rename_path
      = if ctx.last_rename_path ≠ "" ∧ fs.path_eq ctx.last_rename_path path = false
            ∧ access ctx.last_rename_path = -1
        then "" else path := by
  have hany : flags &&& fsev_flag_effect_any ≠ 0 :=
    (effect_any_iff flags).2 (Or.inr (Or.inr (Or.inr h)))
  unfold event_recv_one
  rw [if_neg hany]
  simp only [rename_slot _ _ _ _ _ h, modify_state, remove_slot, create_slot]


theorem ite_sublist_singleton (c : Prop) [Decidable c] (a : sink_call) :
    List.Sublist (if c then [a] else []) [a] := by
  split_ifs <;> simp

/-! Where the `Create` calls of a run come from. -/

theorem create_of_mem_one (access : String → Int) (ctx : ctx_type) (path P : String)
    (flags : Nat) (c : sink_call) (hc : c ∈ (event_recv_one access ctx path flags).2)
    (hcr : is_create_of P c = true) :
    path = P ∧ flags &&& fsev_flag_effect_create ≠ 0 := by
  by_cases hany : flags &&& fsev_flag_effect_any = 0
  · unfold event_recv_one at hc
    rw [if_pos hany] at hc
    simp only [List.mem_singleton] at hc
    subst hc
    simp [is_create_of] at hcr
  · rw [one_calls _ _ _ _ hany] at hc
    simp only [List.mem_append] at hc
    rcases hc with ((hc | hc) | hc) | hc
    all_goals split_ifs at hc <;> simp_all [is_create_of]

theorem one_countP_create (access : String → Int) (ctx : ctx_type) (path : String)
    (flags : Nat) (h : flags &&& fsev_flag_effect_create ≠ 0) :
    (event_recv_one access ctx path flags).2.countP (is_create_of path)
      = if path ∈ ctx.seen_created_paths then 0 else 1 := by
  have hany : flags &&& fsev_flag_effect_any ≠ 0 := (effect_any_iff flags).2 (Or.inl h)
  rw [one_calls _ _ _ _ hany]
  simp only [List.countP_append]
  split_ifs <;> simp_all [is_create_of]

/-! Runs of `event_recv_one`: over a list of events, in the loop of
`event_recv`, and over a sequence of invocations. -/

theorem follows_list (ctx : ctx_type) (es : List fs_event) :
    follows ctx (event_recv_list ctx es) := by
  induction es generalizing ctx with
  | nil => simp [event_recv_list, follows, alternates, seen_after]
  | cons e es ih =>
    simp only [event_recv_list]
    exact follows_append _ _ _ (follows_one _ _ _ _) (ih _)

theorem list_append (ctx : ctx_type) (a b : List fs_event) :
    event_recv_list ctx (a ++ b)
      = ((event_recv_list (event_recv_list ctx a).1 b).1,
          (event_recv_list ctx a).2 ++ (event_recv_list (event_recv_list ctx a).1 b).2) := by
  induction a generalizing ctx with
  | nil => simp [event_recv_list]
  | cons e es ih => simp [event_recv_list, ih]

theorem list_no_create (ctx : ctx_type) (es : List fs_event) (P : String)
    (h : ∀ e ∈ es, e.path = P → e.flags &&& fsev_flag_effect_create = 0) :
    ∀ c ∈ (event_recv_list ctx es).2, is_create_of P c = false := by
  induction es generalizing ctx with
  | nil => intro c hc; simp [event_recv_list] at hc
  | cons e es ih =>
    intro c hc
    simp only [event_recv_list, List.mem_append] at hc
    rcases hc with hc | hc
    · by_contra hcr
      have hcr2 : is_create_of P c = true := by simpa using hcr
      obtain ⟨hp, hf⟩ := create_of_mem_one _ _ _ _ _ _ hc hcr2
      exact hf (h e (List.mem_cons_self _ _) hp)
    · exact ih _ (fun e2 he2 => h e2 (List.mem_cons_of_mem _ he2)) c hc

theorem loop_eq_list (access : Nat → String → Int) (paths : Option cf_array)
    (flags : Nat → Nat) (n i : Nat) (ctx : ctx_type) :
    event_recv_loop access paths flags n i ctx
      = event_recv_list ctx (loop_events access paths flags n i) := by
  induction n generalizing i ctx with
  | zero => rfl
  | succ n ih => simp only [event_recv_loop, loop_events, event_recv_list, ih]

theorem recv_eq_list (access : Nat → String → Int) (ctx : ctx_type) (a : event_recv_args) :
    event_recv access ctx a = event_recv_list ctx (recv_events access a) := by
  unfold event_recv recv_events
  split
  · exact loop_eq_list _ _ _ _ _ _
  · rfl

theorem seq_eq_list (ctx : ctx_type) (bs : List ((Nat → String → Int) × event_recv_args)) :
    event_recv_seq ctx bs = event_recv_list ctx (seq_events bs) := by
  induction bs generalizing ctx with
  | nil => rfl
  | cons b bs ih =>
    simp only [event_recv_seq, seq_events, list_append, ih, recv_eq_list]

end darwin

namespace inotify

open wtr

/-! The watch-descriptor map. -/

theorem pm_erase_cons (a : Int) (b : String) (rest : path_map_type) (k : Int) :
    pm_erase ((a, b) :: rest) k
      = if a = k then pm_erase rest k else (a, b) :: pm_erase rest k := by
  by_cases h : a = k <;> simp [pm_erase, List.filter_cons, h]

theorem pm_find_erase_same (pm : path_map_type) (k : Int) : pm_find (pm_erase pm k) k = none := by
  induction pm with
  | nil => rfl
  | cons kv rest ih =>
    obtain ⟨a, b⟩ := kv
    rw [pm_erase_cons]
    by_cases h : a = k
    · rw [if_pos h]; exact ih
    · rw [if_neg h]
      simp only [pm_find, h, if_false]
      exact ih

theorem pm_find_erase_ne (pm : path_map_type) (k j : Int) (hj : j ≠ k) :
    pm_find (pm_erase pm k) j = pm_find pm j := by
  induction pm with
  | nil => rfl
  | cons kv rest ih =>
    obtain ⟨a, b⟩ := kv
    rw [pm_erase_cons]
    by_cases h : a = k
    · have haj : a ≠ j := fun e => hj (e ▸ h)
      rw [if_pos h]
      simp only [pm_find, haj, if_false]
      exact ih
    · rw [if_neg h]
      by_cases haj : a = j
      · simp only [pm_find, haj, if_true]
      · simp only [pm_find, haj, if_false]
        exact ih

theorem pm_find_assign_same (pm : path_map_type) (k : Int) (v : String) :
    pm_find (pm_assign pm k v) k = some v := by
  simp [pm_assign, pm_find]

theorem pm_find_assign_ne (pm : path_map_type) (k j : Int) (v : String) (hj : j ≠ k) :
    pm_find (pm_assign pm k v) j = pm_find pm j := by
  have hkj : k ≠ j := fun e => hj e.symm
  simp only [pm_assign, pm_find, hkj, if_false]
  exact pm_find_erase_ne pm k j hj

theorem mem_keys_of_find (pm : path_map_type) (k : Int) (v : String)
    (h : pm_find pm k = some v) : k ∈ (pm.map Prod.fst).toFinset := by
  induction pm with
  | nil => simp [pm_find] at h
  | cons kv rest ih =>
    obtain ⟨a, b⟩ := kv
    by_cases hak : a = k
    · simp [hak]
    · simp only [pm_find, hak, if_false] at h
      simp only [List.map_cons, List.toFinset_cons, Finset.mem_insert]
      right; exact ih h

theorem keys_erase (pm : path_map_type) (k : Int) :
    ((pm_erase pm k).map Prod.fst).toFinset = ((pm.map Prod.fst).toFinset).erase k := by
  ext j
  simp only [pm_erase, List.mem_toFinset, List.mem_map, List.mem_filter, Finset.mem_erase,
    decide_eq_true_eq]
  constructor
  · rintro ⟨kv, ⟨hmem, hne⟩, rfl⟩
    exact ⟨hne, kv, hmem, rfl⟩
  · rintro ⟨hne, kv, hmem, rfl⟩
    exact ⟨kv, ⟨hmem, hne⟩, rfl⟩

theorem keys_assign (pm : path_map_type) (k : Int) (v : String) :
    ((pm_assign pm k v).map Prod.fst).toFinset = insert k ((pm.map Prod.fst).toFinset) := by
  simp only [pm_assign, List.map_cons, List.toFinset_cons, keys_erase]
  ext j
  simp only [Finset.mem_insert, Finset.mem_erase]
  by_cases h : j = k <;> simp [h]

theorem keys_emplace (pm : path_map_type) (k : Int) (v : String) :
    ((pm_emplace pm k v).map Prod.fst).toFinset = insert k ((pm.map Prod.fst).toFinset) := by
  unfold pm_emplace
  split
  · rename_i w hw
    exact (Finset.insert_eq_of_mem (mem_keys_of_find pm k w hw)).symm
  · simp

end inotify

namespace wtr

/-! Diagnostic tokens. -/

theorem carries_token_append (toks : List String) (tok rest : String) (h : tok ∈ toks) :
    carries_token toks (tok ++ rest) :=
  ⟨tok, h, by rw [String.data_append]; exact List.prefix_append _ _⟩

theorem carries_token_self (toks : List String) (tok : String) (h : tok ∈ toks) :
    carries_token toks tok :=
  ⟨tok, h, List.prefix_refl _⟩

theorem carries_token_mono (t1 t2 : List String) (p : String) (hsub : ∀ x ∈ t1, x ∈ t2)
    (h : carries_token t1 p) : carries_token t2 p := by
  obtain ⟨tok, hmem, hpre⟩ := h
  exact ⟨tok, hsub tok hmem, hpre⟩

theorem isolated_mono (t1 t2 : List String) (c : sink_call) (hsub : ∀ x ∈ t1, x ∈ t2)
    (h : watcher_isolated t1 c) : watcher_isolated t2 c :=
  fun e he hk => carries_token_mono t1 t2 _ hsub (h e he hk)

theorem isolated_of_token (toks : List String) (p : String) (e : effect_type) (k : path_type)
    (h : carries_token toks p) : watcher_isolated toks (sink_call.one ⟨p, e, k⟩) := by
  intro ev hev _
  simp only [events_of, List.mem_singleton] at hev
  subst hev
  exact h

theorem isolated_of_kind (toks : List String) (p : String) (e : effect_type) (k : path_type)
    (h : k ≠ path_type.watcher) : watcher_isolated toks (sink_call.one ⟨p, e, k⟩) := by
  intro ev hev hk
  simp only [events_of, List.mem_singleton] at hev
  subst hev
  exact absurd hk h

theorem emitted_sub_diagnostic : ∀ x ∈ emitted_tokens, x ∈ diagnostic_tokens := by
  decide

end wtr

namespace inotify

open wtr

/-! One record of the devel loop. -/

theorem path_type_of_ne_watcher (mask : Nat) : path_type_of mask ≠ path_type.watcher := by
  unfold path_type_of
  split_ifs <;> decide

theorem record_overflow (add : Nat → String → Int) (base_path : String) (st : recv_state)
    (ev : inotify_event) (h : ev.mask &&& IN_Q_OVERFLOW ≠ 0) :
    do_event_recv_record add base_path st ev
      = Except.ok (st, [sink_call.one
          ⟨"e/self/overflow@" ++ base_path, effect_type.other, path_type.watcher⟩]) := by
  unfold do_event_recv_record
  rw [if_neg h]

theorem record_found (add : Nat → String → Int) (base_path : String) (st : recv_state)
    (ev : inotify_event) (parent : String) (hov : ev.mask &&& IN_Q_OVERFLOW = 0)
    (hfind : pm_find st.pm ev.wd = some parent) :
    do_event_recv_record add base_path st ev
      = Except.ok
          (if path_type_of ev.mask = path_type.dir ∧ effect_type_of ev.mask = effect_type.create
            then ⟨pm_assign st.pm
                    (inotify_add_watch (add st.adds (fs.append parent ev.name)) st.active).1
                    (fs.append parent ev.name),
                  (inotify_add_watch (add st.adds (fs.append parent ev.name)) st.active).2,
                  st.adds + 1⟩
            else if path_type_of ev.mask = path_type.dir
                ∧ effect_type_of ev.mask = effect_type.destroy
            then ⟨pm_erase st.pm ev.wd, inotify_rm_watch ev.wd st.active, st.adds⟩
            else st,
           [sink_call.one
              ⟨fs.append parent ev.name, effect_type_of ev.mask, path_type_of ev.mask⟩]) := by
  unfold do_event_recv_record
  rw [if_pos hov, hfind]
  simp only
  split_ifs <;> rfl

/-- Whatever a record delivers was delivered for a record without the overflow
bit whose descriptor is in the map, or is the overflow diagnostic. -/
theorem record_cases (add : Nat → String → Int) (base_path : String) (st st1 : recv_state)
    (ev : inotify_event) (calls : List sink_call)
    (h : do_event_recv_record add base_path st ev = Except.ok (st1, calls)) :
    (ev.mask &&& IN_Q_OVERFLOW ≠ 0 ∧ st1 = st
        ∧ calls = [sink_call.one
            ⟨"e/self/overflow@" ++ base_path, effect_type.other, path_type.watcher⟩])
    ∨ (ev.mask &&& IN_Q_OVERFLOW = 0 ∧ ∃ parent, pm_find st.pm ev.wd = some parent
        ∧ calls = [sink_call.one
            ⟨fs.append parent ev.name, effect_type_of ev.mask, path_type_of ev.mask⟩]) := by
  by_cases hov : ev.mask &&& IN_Q_OVERFLOW = 0
  · right
    refine ⟨hov, ?_⟩
    cases hfind : pm_find st.pm ev.wd with
    | none =>
      unfold do_event_recv_record at h
      rw [if_pos hov, hfind] at h
      cases h
    | some parent =>
      rw [record_found add base_path st ev parent hov hfind] at h
      injection h with h
      injection h with h1 h2
      exact ⟨parent, rfl, h2.symm⟩
  · left
    rw [record_overflow add base_path st ev hov] at h
    injection h with h
    injection h with h1 h2
    exact ⟨hov, h1.symm, h2.symm⟩

/-! A property of every sink call, lifted from one record to the loop, to
`do_event_recv` and to `watch`. -/

theorem loop_all (Q : sink_call → Prop) (add : Nat → String → Int) (base_path : String)
    (buf : read_buffer)
    (hrec : ∀ st ev st1 calls,
      do_event_recv_record add base_path st ev = Except.ok (st1, calls) → ∀ c ∈ calls, Q c)
    (fuel off : Nat) (st st1 : recv_state) (calls : List sink_call)
    (h : do_event_recv_loop add base_path buf fuel off st = Except.ok (st1, calls)) :
    ∀ c ∈ calls, Q c := by
  induction fuel generalizing off st st1 calls with
  | zero =>
    unfold do_event_recv_loop at h
    split_ifs at h
    injection h with h
    injection h with _ h2
    subst h2
    intro c hc; cases hc
  | succ n ih =>
    unfold do_event_recv_loop at h
    split_ifs at h with hlt
    · split at h
      · cases h
      · rename_i st2 calls2 hrec2
        split at h
        · cases h
        · rename_i st3 calls3 hloop
          injection h with h
          injection h with _ h2
          subst h2
          intro c hc
          rcases List.mem_append.1 hc with hc | hc
          · exact hrec st _ st2 calls2 hrec2 c hc
          · exact ih _ _ _ _ hloop c hc
    · injection h with h
      injection h with _ h2
      subst h2
      intro c hc; cases hc

theorem recv_all (Q : sink_call → Prop) (add : Nat → String → Int) (base_path : String)
    (reads : List read_result)
    (hrec : ∀ st ev st1 calls,
      do_event_recv_record add base_path st ev = Except.ok (st1, calls) → ∀ c ∈ calls, Q c)
    (hread : Q (sink_call.one
      ⟨"e/sys/read@" ++ base_path, effect_type.other, path_type.watcher⟩))
    (st st1 : recv_state) (ok : Bool) (calls : List sink_call)
    (h : do_event_recv add base_path reads st = Except.ok (ok, st1, calls)) :
    ∀ c ∈ calls, Q c := by
  induction reads generalizing st st1 ok calls with
  | nil =>
    unfold do_event_recv at h
    injection h with h
    injection h with _ h
    injection h with _ h2
    subst h2
    intro c hc; cases hc
  | cons r rest ih =>
    cases r with
    | buffer buf =>
      unfold do_event_recv at h
      split_ifs at h with hpos
      · split at h
        · cases h
        · rename_i st2 calls2 hloop
          split at h
          · cases h
          · rename_i ok3 st3 calls3 hrest
            injection h with h
            injection h with _ h
            injection h with _ h2
            subst h2
            intro c hc
            rcases List.mem_append.1 hc with hc | hc
            · exact loop_all Q add base_path buf hrec _ _ _ _ _ hloop c hc
            · exact ih _ _ _ _ hrest c hc
      · injection h with h
        injection h with _ h
        injection h with _ h2
        subst h2
        intro c hc; cases hc
    | eagain =>
      unfold do_event_recv at h
      injection h with h
      injection h with _ h
      injection h with _ h2
      subst h2
      intro c hc; cases hc
    | failure =>
      unfold do_event_recv at h
      injection h with h
      injection h with _ h
      injection h with _ h2
      subst h2
      intro c hc
      simp only [List.mem_singleton] at hc
      subst hc
      exact hread

end inotify

namespace inotify

open wtr

theorem watch_loop_all (Q : sink_call → Prop) (add : Nat → String → Int) (close : Int → Int)
    (sr : sys_resource_type) (path : String)
    (hrecv : ∀ reads st ok st1 calls,
      do_event_recv add path reads st = Except.ok (ok, st1, calls) → ∀ c ∈ calls, Q c)
    (herr : ∀ msg ∈ ["e/sys/epoll_wait@", "e/self/event_recv@"],
      Q (sink_call.one ⟨msg ++ path, effect_type.other, path_type.watcher⟩))
    (iterations : List epoll_outcome) (st : recv_state) (r : watch_result)
    (h : watch_loop add close sr path iterations st = Except.ok r) :
    ∀ c ∈ r.calls, Q c := by
  induction iterations generalizing st r with
  | nil =>
    unfold watch_loop at h
    injection h with h
    subst h
    intro c hc; cases hc
  | cons it rest ih =>
    cases it with
    | failure =>
      unfold watch_loop at h
      injection h with h
      subst h
      intro c hc
      simp only [watch_do_error, List.mem_singleton] at hc
      subst hc
      exact herr _ (by simp)
    | timeout =>
      unfold watch_loop at h
      exact ih _ _ h
    | ready fd reads =>
      unfold watch_loop at h
      split_ifs at h with hfd
      · split at h
        · cases h
        · rename_i st1 calls1 hr
          split at h
          · cases h
          · rename_i r2 hloop
            injection h with h
            subst h
            intro c hc
            rcases List.mem_append.1 hc with hc | hc
            · exact hrecv _ _ _ _ _ hr c hc
            · exact ih _ _ hloop c hc
        · rename_i st1 calls1 hr
          injection h with h
          subst h
          intro c hc
          rcases List.mem_append.1 hc with hc | hc
          · exact hrecv _ _ _ _ _ hr c hc
          · simp only [watch_do_error, List.mem_singleton] at hc
            subst hc
            exact herr _ (by simp)
      · exact ih _ _ h

theorem watch_all (Q : sink_call → Prop) (sys : sys_answers) (add : Nat → String → Int)
    (fsv : fs_view) (close : Int → Int) (path : String) (iterations : List epoll_outcome)
    (hunfold : ∀ c ∈ (system_unfold sys).2, Q c)
    (hpm : ∀ c ∈ (path_map add path fsv (system_unfold sys).1).2, Q c)
    (hrecv : ∀ reads st ok st1 calls,
      do_event_recv add path reads st = Except.ok (ok, st1, calls) → ∀ c ∈ calls, Q c)
    (herr : ∀ msg ∈ ["e/sys/epoll_wait@", "e/self/event_recv@", "e/self/path_map@",
        "e/self/sys_resource@"],
      Q (sink_call.one ⟨msg ++ path, effect_type.other, path_type.watcher⟩))
    (r : watch_result)
    (h : watch sys add fsv close path iterations = Except.ok r) :
    ∀ c ∈ r.calls, Q c := by
  unfold watch at h
  simp only at h
  have hsetup : ∀ c ∈ (system_unfold sys).2 ++ (path_map add path fsv (system_unfold sys).1).2,
      Q c := by
    intro c hc
    rcases List.mem_append.1 hc with hc | hc
    · exact hunfold c hc
    · exact hpm c hc
  split_ifs at h with hv hlen
  · split at h
    · cases h
    · rename_i r2 hloop
      injection h with h
      subst h
      intro c hc
      rcases List.mem_append.1 hc with hc | hc
      · exact hsetup c hc
      · exact watch_loop_all Q add close _ path hrecv
          (fun msg hm => herr msg (by
            simp only [List.mem_cons, List.mem_singleton, List.not_mem_nil, or_false] at hm ⊢
            rcases hm with hm | hm
            · left; exact hm
            · right; left; exact hm)) iterations _ _ hloop c hc
  · injection h with h
    subst h
    intro c hc
    rcases List.mem_append.1 hc with hc | hc
    · exact hsetup c hc
    · simp only [watch_do_error, List.mem_singleton] at hc
      subst hc
      exact herr _ (by simp)
  · injection h with h
    subst h
    intro c hc
    rcases List.mem_append.1 hc with hc | hc
    · exact hsetup c hc
    · simp only [watch_do_error, List.mem_singleton] at hc
      subst hc
      exact herr _ (by simp)

/-! Every diagnostic the devel adapter delivers carries one of its tokens. -/

theorem unfold_calls (sys : sys_answers) :
    ∀ c ∈ (system_unfold sys).2,
      ∃ tok ∈ ["e/sys/inotify_init", "e/sys/epoll_create", "e/sys/epoll_ctl"],
        c = sink_call.one ⟨tok, effect_type.other, path_type.watcher⟩ := by
  intro c hc
  unfold system_unfold at hc
  simp only at hc
  split_ifs at hc <;> simp_all [system_unfold_do_error]

theorem unfold_isolated (sys : sys_answers) :
    ∀ c ∈ (system_unfold sys).2, watcher_isolated emitted_tokens c := by
  intro c hc
  obtain ⟨tok, htok, rfl⟩ := unfold_calls sys c hc
  have hsub : ∀ x ∈ ["e/sys/inotify_init", "e/sys/epoll_create", "e/sys/epoll_ctl"],
      x ∈ emitted_tokens := by decide
  exact isolated_of_token _ _ _ _ (carries_token_self _ _ (hsub tok htok))

theorem path_map_walk_calls (add : Nat → String → Int) (base_path : String)
    (walk : List walk_item) (st : recv_state) :
    ∀ c ∈ (path_map_walk add base_path walk st).2,
      ∃ d, c = sink_call.one ⟨"w/sys/not_watched@" ++ base_path ++ "@" ++ d,
        effect_type.other, path_type.watcher⟩ := by
  induction walk generalizing st with
  | nil => intro c hc; simp [path_map_walk] at hc
  | cons it rest ih =>
    cases it with
    | throws => intro c hc; simp [path_map_walk] at hc
    | entry d is_dir =>
      intro c hc
      simp only [path_map_walk] at hc
      split_ifs at hc with h1 h2
      · exact ih _ c hc
      · simp only [List.mem_cons] at hc
        rcases hc with hc | hc
        · exact ⟨d, hc⟩
        · exact ih _ c hc
      · exact ih _ c hc

theorem path_map_calls (add : Nat → String → Int) (base_path : String) (fsv : fs_view)
    (sr : sys_resource_type) :
    ∀ c ∈ (path_map add base_path fsv sr).2,
      ∃ d, c = sink_call.one ⟨"w/sys/not_watched@" ++ base_path ++ "@" ++ d,
        effect_type.other, path_type.watcher⟩ := by
  intro c hc
  simp only [path_map] at hc
  split_ifs at hc with h1 h2
  · split at hc
    · exact path_map_walk_calls _ _ _ _ c hc
    · cases hc
  · cases hc
  · cases hc

theorem path_map_isolated (add : Nat → String → Int) (base_path : String) (fsv : fs_view)
    (sr : sys_resource_type) :
    ∀ c ∈ (path_map add base_path fsv sr).2, watcher_isolated emitted_tokens c := by
  intro c hc
  obtain ⟨d, rfl⟩ := path_map_calls add base_path fsv sr c hc
  apply isolated_of_token
  rw [String.append_assoc, String.append_assoc]
  exact carries_token_append _ _ _ (by decide)

theorem record_isolated (add : Nat → String → Int) (base_path : String) (st st1 : recv_state)
    (ev : inotify_event) (calls : List sink_call)
    (h : do_event_recv_record add base_path st ev = Except.ok (st1, calls)) :
    ∀ c ∈ calls, watcher_isolated emitted_tokens c := by
  intro c hc
  rcases record_cases add base_path st st1 ev calls h with ⟨_, _, hcalls⟩ | ⟨_, parent, _, hcalls⟩
  · subst hcalls
    simp only [List.mem_singleton] at hc
    subst hc
    exact isolated_of_token _ _ _ _ (carries_token_append _ _ _ (by decide))
  · subst hcalls
    simp only [List.mem_singleton] at hc
    subst hc
    exact isolated_of_kind _ _ _ _ (path_type_of_ne_watcher _)

theorem recv_isolated (add : Nat → String → Int) (base_path : String)
    (reads : List read_result) (st st1 : recv_state) (ok : Bool) (calls : List sink_call)
    (h : do_event_recv add base_path reads st = Except.ok (ok, st1, calls)) :
    ∀ c ∈ calls, watcher_isolated emitted_tokens c :=
  recv_all (watcher_isolated emitted_tokens) add base_path reads
    (fun st ev st1 calls hr => record_isolated add base_path st st1 ev calls hr)
    (isolated_of_token _ _ _ _ (carries_token_append _ _ _ (by decide)))
    st st1 ok calls h

theorem watch_isolated (sys : sys_answers) (add : Nat → String → Int) (fsv : fs_view)
    (close : Int → Int) (path : String) (iterations : List epoll_outcome) (r : watch_result)
    (h : watch sys add fsv close path iterations = Except.ok r) :
    ∀ c ∈ r.calls, watcher_isolated emitted_tokens c :=
  watch_all (watcher_isolated emitted_tokens) sys add fsv close path iterations
    (unfold_isolated sys) (path_map_isolated add path fsv _)
    (fun reads st ok st1 calls hr => recv_isolated add path reads st st1 ok calls hr)
    (fun msg hm => isolated_of_token _ _ _ _ (carries_token_append _ _ _ (by
      revert msg
      decide)))
    r h

end inotify

namespace inotify

open wtr

/-! The keys of the map and the active watch descriptors. -/

theorem do_mark_keys (add : Nat → String → Int) (st : recv_state) (d : String)
    (h : keys_eq_active st) : keys_eq_active (do_mark add st d).2 := by
  unfold keys_eq_active at *
  simp only [do_mark, inotify_add_watch]
  by_cases hr : 0 < add st.adds d
  · simp only [hr, if_true, keys_emplace, h]
  · have hneg : ¬ (0 : Int) < -1 := by decide
    simp only [hr, if_false, hneg, h]

theorem path_map_walk_keys (add : Nat → String → Int) (base_path : String)
    (walk : List walk_item) (st : recv_state) (h : keys_eq_active st) :
    keys_eq_active (path_map_walk add base_path walk st).1 := by
  induction walk generalizing st with
  | nil => exact h
  | cons it rest ih =>
    cases it with
    | throws => exact h
    | entry d is_dir =>
      simp only [path_map_walk]
      split_ifs with h1 h2
      · exact ih _ (do_mark_keys add st d h)
      · exact ih _ (do_mark_keys add st d h)
      · exact ih _ h

theorem path_map_keys (add : Nat → String → Int) (base_path : String) (fsv : fs_view)
    (sr : sys_resource_type) : keys_eq_active (path_map add base_path fsv sr).1 := by
  have h0 : keys_eq_active ⟨[], ∅, 0⟩ := by simp [keys_eq_active]
  simp only [path_map]
  split_ifs with h1 h2
  · split
    · exact path_map_walk_keys _ _ _ _ (do_mark_keys add _ base_path h0)
    · exact do_mark_keys add _ base_path h0
  · exact do_mark_keys add _ base_path h0
  · exact h0

/-- A record keeps the keys of the map equal to the active descriptors, unless
it is a directory `Create` whose `inotify_add_watch` fails. -/
theorem record_keeps_keys (add : Nat → String → Int) (base_path : String)
    (st st1 : recv_state) (ev : inotify_event) (calls : List sink_call)
    (hkeys : keys_eq_active st)
    (h : do_event_recv_record add base_path st ev = Except.ok (st1, calls))
    (hadd : ∀ parent, pm_find st.pm ev.wd = some parent →
      ev.mask &&& IN_Q_OVERFLOW = 0 → path_type_of ev.mask = path_type.dir →
      effect_type_of ev.mask = effect_type.create →
      0 < add st.adds (fs.append parent ev.name)) :
    keys_eq_active st1 := by
  by_cases hov : ev.mask &&& IN_Q_OVERFLOW = 0
  · cases hfind : pm_find st.pm ev.wd with
    | none =>
      unfold do_event_recv_record at h
      rw [if_pos hov, hfind] at h
      cases h
    | some parent =>
      rw [record_found add base_path st ev parent hov hfind] at h
      injection h with h
      injection h with h1 _
      subst h1
      unfold keys_eq_active at *
      split_ifs with hc hd
      · have hpos := hadd parent hfind hov hc.1 hc.2
        simp only [inotify_add_watch, hpos, if_true, keys_assign, hkeys]
      · simp only [keys_erase, inotify_rm_watch, hkeys]
      · exact hkeys
  · rw [record_overflow add base_path st ev hov] at h
    injection h with h
    injection h with h1 _
    subst h1
    exact hkeys

end inotify

namespace darwin

open wtr

/-! The kind of the events of one FSEvents flag word. -/

theorem fsev_path_type_ne_watcher (flags : Nat) : path_type_of flags ≠ path_type.watcher := by
  unfold path_type_of
  split_ifs <;> decide

theorem one_kind (access : String → Int) (ctx : ctx_type) (path : String) (flags : Nat) :
    ∀ c ∈ (event_recv_one access ctx path flags).2, ∀ e ∈ events_of c,
      e.path_kind = path_type_of flags := by
  intro c hc e he
  by_cases hany : flags &&& fsev_flag_effect_any = 0
  · unfold event_recv_one at hc
    rw [if_pos hany] at hc
    simp only [List.mem_singleton] at hc
    subst hc
    simp only [events_of, List.mem_singleton] at he
    subst he
    rfl
  · rw [one_calls _ _ _ _ hany] at hc
    simp only [List.mem_append] at hc
    rcases hc with ((hc | hc) | hc) | hc
    all_goals
      split_ifs at hc <;> simp only [List.mem_singleton, List.not_mem_nil] at hc
      all_goals
        subst hc
        simp only [events_of, List.mem_cons, List.mem_singleton, List.not_mem_nil,
          or_false] at he
        first
        | (subst he; rfl)
        | (rcases he with he | he <;> subst he <;> rfl)

end darwin

namespace inotify

open wtr

/-! The effect of a record, bit by bit. -/

theorem effect_type_of_chain (mask : Nat) :
    effect_type_of mask
      = (if mask &&& IN_CREATE ≠ 0 then effect_type.create
        else if mask &&& IN_DELETE ≠ 0 then effect_type.destroy
        else if mask &&& IN_MOVED_FROM ≠ 0 ∨ mask &&& IN_MOVED_TO ≠ 0 then effect_type.rename
        else if mask &&& IN_MODIFY ≠ 0 then effect_type.modify
        else effect_type.other) := by
  unfold effect_type_of IN_MOVE
  simp only [aux.land_lor_ne_zero]

theorem effect_destroy_iff (mask : Nat) :
    effect_type_of mask = effect_type.destroy
      ↔ mask &&& IN_CREATE = 0 ∧ mask &&& IN_DELETE ≠ 0 := by
  unfold effect_type_of
  split_ifs <;> simp_all

theorem effect_create_iff (mask : Nat) :
    effect_type_of mask = effect_type.create ↔ mask &&& IN_CREATE ≠ 0 := by
  unfold effect_type_of
  split_ifs <;> simp_all

theorem path_type_dir_iff (mask : Nat) :
    path_type_of mask = path_type.dir ↔ mask &&& IN_ISDIR ≠ 0 := by
  unfold path_type_of
  split_ifs <;> simp_all

theorem close_token_not_emitted (s : String) :
    ¬ carries_token emitted_tokens ("e/sys/close@" ++ s) := by
  have hclose : "e/sys/close@".data
      = ['e', '/', 's', 'y', 's', '/', 'c', 'l', 'o', 's', 'e', '@'] := rfl
  rintro ⟨tok, hmem, hpre⟩
  rw [String.data_append, hclose] at hpre
  simp only [emitted_tokens, List.mem_cons, List.mem_singleton, List.not_mem_nil,
    or_false] at hmem
  rcases hmem with h | h | h | h | h | h | h | h | h | h
  all_goals
    subst h
    revert hpre
    simp [List.cons_prefix_cons]

end inotify

namespace inotify

open wtr

/-! The drain step of `do_event_recv`. -/

end inotify

namespace legacy_inotify

open wtr inotify

/-! The legacy record loop on a record whose `len` is 0. -/

/-- A record with `len = 0` that leaves the state as it was is processed again
and again: whatever the fuel, the legacy loop does not get past it. -/
theorem legacy_loop_stuck (add : Nat → String → Int) (base_path : String)
    (buf : read_buffer) (off : Nat) (st : recv_state)
    (calls : List sink_call) (hoff : off < buf.len)
    (hlen : (buf.this_event off).len = 0)
    (hrec : do_event_recv_record add base_path st (buf.this_event off) = Except.ok (st, calls))
    (fuel : Nat) :
    do_event_recv_loop add base_path buf fuel off st = Except.error fault.out_of_fuel := by
  induction fuel with
  | zero =>
    unfold do_event_recv_loop
    rw [if_pos hoff]
  | succ n ih =>
    unfold do_event_recv_loop
    have hstep : off + this_event_step (buf.this_event off) = off := by
      simp [this_event_step, hlen]
    rw [if_pos hoff]
    simp only [hrec, hstep, ih]

end legacy_inotify

namespace darwin

open wtr

/-! The events of one invocation, by index. -/

theorem loop_events_eq (access : Nat → String → Int) (paths : Option cf_array)
    (flags : Nat → Nat) (n i : Nat) :
    loop_events access paths flags n i
      = (List.range' i n).map
          (fun j => (⟨access j, path_from_event_at paths j, flags j⟩ : fs_event)) := by
  induction n generalizing i with
  | zero => rfl
  | succ n ih => simp only [loop_events, List.range'_succ, List.map_cons, ih]

theorem loop_events_indexed (access : Nat → String → Int) (paths : Option cf_array)
    (flags : Nat → Nat) (count : Nat) :
    loop_events access paths flags count 0 = indexed_events access paths flags count := by
  rw [loop_events_eq, indexed_events, List.range_eq_range']

/-! The `Create` and `Destroy` events of one path in a list of sink calls. -/

theorem mem_seen_step_iff (S : Finset String) (P : String) (c : sink_call) :
    P ∈ seen_step S c
      ↔ is_create_of P c = true ∨ (is_destroy_of P c = false ∧ P ∈ S) := by
  cases c with
  | pair a b => simp [seen_step, is_create_of, is_destroy_of]
  | one e =>
    simp only [seen_step, is_create_of, is_destroy_of, decide_eq_true_eq,
      decide_eq_false_iff_not]
    by_cases hp : e.path = P
    · subst hp
      split_ifs with h1 h2
      · simp [h1]
      · simp [h1, h2]
      · simp [h1, h2]
    · have hp2 : ¬ P = e.path := fun h => hp h.symm
      split_ifs with h1 h2
      · simp [hp, hp2]
      · simp [hp, hp2]
      · simp [hp]

/-- The path is in the set after the calls exactly when the last `Create` or
`Destroy` for it is a `Create`, or there is none and it was in the set. -/
theorem seen_after_last (S : Finset String) (P : String) (t : List sink_call) :
    P ∈ seen_after S t
      ↔ last_or (decide (P ∈ S)) (create_destroy_trace P t) = true := by
  induction t generalizing S with
  | nil => simp [seen_after, create_destroy_trace, last_or]
  | cons c t ih =>
    simp only [seen_after, create_destroy_trace]
    rw [ih]
    by_cases hc : is_create_of P c = true
    · have hm : P ∈ seen_step S c := (mem_seen_step_iff S P c).2 (Or.inl hc)
      simp only [hc, if_true, hm, decide_True, last_or]
    · by_cases hd : is_destroy_of P c = true
      · have hm : P ∉ seen_step S c := by
          intro hh
          rcases (mem_seen_step_iff S P c).1 hh with h | h
          · exact hc h
          · rw [hd] at h; cases h.1
        simp only [hc, hd, if_true, if_false, hm, decide_False, last_or]
      · have hiff : P ∈ seen_step S c ↔ P ∈ S := by
          rw [mem_seen_step_iff]
          constructor
          · rintro (h | h)
            · exact absurd h hc
            · exact h.2
          · intro h
            right
            exact ⟨by simpa using hd, h⟩
        simp [hc, hd, hiff]

/-- Alternating calls give, for each path, a strictly alternating list of
`Create` and `Destroy`, starting with `Create` when the path is not in the set. -/
theorem trace_alternates (S : Finset String) (P : String) (t : List sink_call)
    (h : alternates S t) :
    strictly_alternates (decide (P ∉ S)) (create_destroy_trace P t) = true := by
  induction t generalizing S with
  | nil => rfl
  | cons c t ih =>
    have htail : alternates (seen_step S c) t := by
      cases c with
      | one e => exact h.2.2
      | pair a b => exact h
    have hih := ih (seen_step S c) htail
    simp only [create_destroy_trace]
    by_cases hc : is_create_of P c = true
    · have hm : P ∈ seen_step S c := (mem_seen_step_iff S P c).2 (Or.inl hc)
      have hnot : P ∉ S := by
        cases c with
        | pair a b => simp [is_create_of] at hc
        | one e =>
          simp only [is_create_of, decide_eq_true_eq] at hc
          exact hc.1 ▸ h.1 hc.2
      simp only [hc, if_true, strictly_alternates, hnot, not_false_eq_true, decide_True,
        beq_self_eq_true, Bool.true_and, Bool.not_true]
      simpa [hm] using hih
    · by_cases hd : is_destroy_of P c = true
      · have hin : P ∈ S := by
          cases c with
          | pair a b => simp [is_destroy_of] at hd
          | one e =>
            simp only [is_destroy_of, decide_eq_true_eq] at hd
            exact hd.1 ▸ h.2.1 hd.2
        have hm : P ∉ seen_step S c := by
          intro hh
          rcases (mem_seen_step_iff S P c).1 hh with h1 | h1
          · exact hc h1
          · rw [hd] at h1; cases h1.1
        simp only [hc, hd, if_true, if_false, strictly_alternates, hin, not_true_eq_false,
          decide_False, beq_self_eq_true, Bool.true_and, Bool.not_false]
        simpa [hm] using hih
      · have hiff : P ∈ seen_step S c ↔ P ∈ S := by
          rw [mem_seen_step_iff]
          constructor
          · rintro (h1 | h1)
            · exact absurd h1 hc
            · exact h1.2
          · intro h1
            right
            exact ⟨by simpa using hd, h1⟩
        simp only [hc, hd, if_false]
        simpa [hiff] using hih

end darwin

/-! ## Linux adapter: record iteration and teardown -/

section linux_claims

open wtr inotify

/-- C1 (the code departs from the claim).  One read holds the CREATE record and
the DELETE record of `a` (each 16 header bytes and 16 name bytes) under the
watch of `/tmp/w`: the buffer has 64 bytes and its second record starts at
byte 32, but `this_event += sizeof(inotify_event)` moves the record pointer by
256 bytes, so the devel `do_event_recv` delivers the `Create` event only and
never reads the DELETE record. -/
theorem C1_devel_do_event_recv_skips_records :
    read_len [⟨1, IN_CREATE, 0, 16, "a"⟩, ⟨1, IN_DELETE, 0, 16, "a"⟩] = 64
    ∧ event_at [⟨1, IN_CREATE, 0, 16, "a"⟩, ⟨1, IN_DELETE, 0, 16, "a"⟩] 32
        = some ⟨1, IN_DELETE, 0, 16, "a"⟩
    ∧ this_event_stride = 256
    ∧ do_event_recv (fun _ _ => -1) "/tmp/w"
        [read_result.records [⟨1, IN_CREATE, 0, 16, "a"⟩, ⟨1, IN_DELETE, 0, 16, "a"⟩]]
        ⟨[(1, "/tmp/w")], {1}, 0⟩
      = Except.ok (true, ⟨[(1, "/tmp/w")], {1}, 0⟩,
          [sink_call.one ⟨"/tmp/w/a", effect_type.create, path_type.file⟩]) := by
  decide

/-- C2 (the code departs from the claim).  With descriptors 3 and 4: when
`close(watch_fd)` succeeds, `&&` short-circuits, `close` is never called on
`event_fd` and the result is `true`; when `close(watch_fd)` fails and
`close(event_fd)` succeeds the result is `true` as well.  For every answer of
`close`: the result is `true` as soon as one of the two closes answers 0, and
`event_fd` is closed only after a failed close of `watch_fd`.  The devel
`system_fold` and the legacy `do_sys_resource_close` agree. -/
theorem C2_close_short_circuits (close : Int → Int) (sr : sys_resource_type) :
    system_fold (fun _ => 0) ⟨true, 3, 4, 1, 3⟩ = (true, [3])
    ∧ legacy_inotify.do_sys_resource_close (fun _ => 0) ⟨true, 3, 4, 1, 3⟩ = (true, [3])
    ∧ system_fold (fun fd => if fd = 3 then -1 else 0) ⟨true, 3, 4, 1, 3⟩ = (true, [3, 4])
    ∧ legacy_inotify.do_sys_resource_close (fun fd => if fd = 3 then -1 else 0)
        ⟨true, 3, 4, 1, 3⟩ = (true, [3, 4])
    ∧ (system_fold close sr).1
        = (decide (close sr.watch_fd = 0) || decide (close sr.event_fd = 0))
    ∧ (system_fold close sr).2
        = (if close sr.watch_fd = 0 then [sr.watch_fd] else [sr.watch_fd, sr.event_fd])
    ∧ legacy_inotify.do_sys_resource_close close sr = system_fold close sr := by
  refine ⟨by decide, by decide, by decide, by decide, ?_, ?_, rfl⟩
  · unfold system_fold
    split_ifs <;> simp_all
  · unfold system_fold
    split_ifs <;> simp_all

end linux_claims

/-! ## Darwin adapter: runs of the stream callback -/

section darwin_run_claims

open wtr darwin

/-- C3.  In the sink calls of any sequence of `event_recv` invocations started
from the initial state of `watch`, every `Destroy` event for a path `P` has a
`Create` event for `P` before it.  (The base path needs no exception.) -/
theorem C3_destroy_after_create (bs : List ((Nat → String → Int) × event_recv_args))
    (P : String) (pre post : List sink_call) (d : sink_call)
    (hd : is_destroy_of P d = true)
    (h : (event_recv_seq watch_initial_ctx bs).2 = pre ++ d :: post) :
    ∃ c ∈ pre, is_create_of P c = true := by
  have hf := (follows_seq watch_initial_ctx bs).1
  rw [h, alternates_append] at hf
  obtain ⟨_, htail⟩ := hf
  cases d with
  | pair a b => simp [is_destroy_of] at hd
  | one e =>
    simp only [is_destroy_of, decide_eq_true_eq] at hd
    simp only [alternates] at htail
    have hmem := htail.2.1 hd.2
    rw [hd.1] at hmem
    rcases mem_seen_after _ _ _ hmem with h0 | h1
    · simp [watch_initial_ctx] at h0
    · exact h1

/-- C3, applied to a batch that creates `/tmp/w/a` and a batch that removes it. -/
theorem C3_destroy_after_create_witness :
    ∃ c ∈ [sink_call.one ⟨"/tmp/w/a", effect_type.create, path_type.file⟩],
      is_create_of "/tmp/w/a" c = true :=
  C3_destroy_after_create
    [(fun _ _ => 0, ⟨some true, 1, some (fun _ => some (some (some "/tmp/w/a"))),
        some (fun _ => 0x10100)⟩),
     (fun _ _ => 0, ⟨some true, 1, some (fun _ => some (some (some "/tmp/w/a"))),
        some (fun _ => 0x10200)⟩)]
    "/tmp/w/a" [sink_call.one ⟨"/tmp/w/a", effect_type.create, path_type.file⟩] []
    (sink_call.one ⟨"/tmp/w/a", effect_type.destroy, path_type.file⟩)
    (by decide) (by decide)

/-- C4, as stated, fails: one batch in which `/tmp/w/a` is created, removed
and created again delivers `Create`, `Destroy`, `Create` for that path, two
`Create` events with the same path. -/
theorem C4_two_creates_in_one_batch :
    (event_recv (fun _ _ => 0) watch_initial_ctx
        ⟨some true, 3, some (fun _ => some (some (some "/tmp/w/a"))),
          some (fun i => if i = 1 then 0x10200 else 0x10100)⟩).2
      = [sink_call.one ⟨"/tmp/w/a", effect_type.create, path_type.file⟩,
         sink_call.one ⟨"/tmp/w/a", effect_type.destroy, path_type.file⟩,
         sink_call.one ⟨"/tmp/w/a", effect_type.create, path_type.file⟩]
    ∧ (event_recv (fun _ _ => 0) watch_initial_ctx
        ⟨some true, 3, some (fun _ => some (some (some "/tmp/w/a"))),
          some (fun i => if i = 1 then 0x10200 else 0x10100)⟩).2.countP
          (is_create_of "/tmp/w/a") = 2 := by
  decide

/-- C4, amended.  For every batch and every starting state, between two
`Create` events with the same path delivered while processing the batch there
is a `Destroy` event for that path. -/
theorem C4_creates_separated_by_destroy (access : Nat → String → Int) (ctx : ctx_type)
    (a : event_recv_args) (P : String) (pre mid post : List sink_call) (c1 c2 : sink_call)
    (h1 : is_create_of P c1 = true) (h2 : is_create_of P c2 = true)
    (h : (event_recv access ctx a).2 = pre ++ c1 :: (mid ++ c2 :: post)) :
    ∃ d ∈ mid, is_destroy_of P d = true := by
  have hf := (follows_recv access ctx a).1
  rw [h, alternates_append] at hf
  obtain ⟨_, htail⟩ := hf
  have hsplit : c1 :: (mid ++ c2 :: post) = (c1 :: mid) ++ c2 :: post := rfl
  rw [hsplit, alternates_append] at htail
  obtain ⟨_, h2nd⟩ := htail
  by_contra hno
  have hno2 : ∀ d ∈ mid, is_destroy_of P d = false := by
    intro d hdm
    by_contra hdd
    exact hno ⟨d, hdm, by simpa using hdd⟩
  have hin : P ∈ seen_after (seen_after ctx.seen_created_paths pre) (c1 :: mid) :=
    mem_seen_after_of_mem _ P mid (mem_seen_step_of_create _ P c1 h1) hno2
  cases c2 with
  | pair x y => simp [is_create_of] at h2
  | one e =>
    simp only [is_create_of, decide_eq_true_eq] at h2
    simp only [alternates] at h2nd
    have := h2nd.1 h2.2
    rw [h2.1] at this
    exact this hin

/-- C4 amended, applied to the batch that creates, removes and creates `/tmp/w/a`. -/
theorem C4_creates_separated_by_destroy_witness :
    ∃ d ∈ [sink_call.one ⟨"/tmp/w/a", effect_type.destroy, path_type.file⟩],
      is_destroy_of "/tmp/w/a" d = true :=
  C4_creates_separated_by_destroy (fun _ _ => 0) watch_initial_ctx
    ⟨some true, 3, some (fun _ => some (some (some "/tmp/w/a"))),
      some (fun i => if i = 1 then 0x10200 else 0x10100)⟩
    "/tmp/w/a" [] [sink_call.one ⟨"/tmp/w/a", effect_type.destroy, path_type.file⟩] []
    (sink_call.one ⟨"/tmp/w/a", effect_type.create, path_type.file⟩)
    (sink_call.one ⟨"/tmp/w/a", effect_type.create, path_type.file⟩)
    (by decide) (by decide) (by decide)

/-- C5.  Start from the initial state of `watch` and take any sequence of
`event_recv` invocations.  Let `e` be the last event processed for `P` with the
created flag (the events `after` it have none), and let no `Destroy` for `P`
be delivered for the events `before` it.  Then exactly one `Create` event for
`P` reaches the sink in the whole run.  The state one invocation leaves is the
state the next starts from. -/
theorem C5_one_create_across_batches
    (bs : List ((Nat → String → Int) × event_recv_args)) (P : String)
    (before after : List fs_event) (e : fs_event)
    (hsplit : seq_events bs = before ++ e :: after)
    (hpath : e.path = P) (hflag : e.flags &&& fsev_flag_effect_create ≠ 0)
    (hnod : ∀ c ∈ (event_recv_list watch_initial_ctx before).2, is_destroy_of P c = false)
    (hlast : ∀ x ∈ after, x.path = P → x.flags &&& fsev_flag_effect_create = 0) :
    (event_recv_seq watch_initial_ctx bs).2.countP (is_create_of P) = 1
    ∧ (∀ (ctx : ctx_type) (x y : (Nat → String → Int) × event_recv_args),
        event_recv_seq ctx [x, y]
          = ((event_recv y.1 (event_recv x.1 ctx x.2).1 y.2).1,
              (event_recv x.1 ctx x.2).2
                ++ (event_recv y.1 (event_recv x.1 ctx x.2).1 y.2).2)) := by
  refine ⟨?_, ?_⟩
  · subst hpath
    have hcons : e :: after = [e] ++ after := rfl
    rw [seq_eq_list, hsplit, list_append, hcons, list_append]
    simp only [List.countP_append]
    have hcount := countP_create watch_initial_ctx.seen_created_paths e.path _
      (follows_list watch_initial_ctx before).1 hnod
    have hout : e.path ∉ watch_initial_ctx.seen_created_paths := by
      simp [watch_initial_ctx]
    rw [if_neg hout, ← (follows_list watch_initial_ctx before).2] at hcount
    have hone : List.countP (is_create_of e.path)
        (event_recv_list (event_recv_list watch_initial_ctx before).1 [e]).2
        = if e.path ∈ (event_recv_list watch_initial_ctx before).1.seen_created_paths
          then 0 else 1 := by
      have := one_countP_create e.access (event_recv_list watch_initial_ctx before).1
        e.path e.flags hflag
      simpa [event_recv_list] using this
    have hzero : List.countP (is_create_of e.path)
        (event_recv_list (event_recv_list (event_recv_list watch_initial_ctx before).1
          [e]).1 after).2 = 0 := by
      rw [List.countP_eq_zero]
      intro c hc
      simp [list_no_create _ after e.path hlast c hc]
    rw [hone, hzero]
    split_ifs at hcount ⊢ <;> omega
  · intro ctx x y
    simp [event_recv_seq]

/-- C5, applied to the file `e`: created, and the created flag delivered again
in the next batch; exactly one `Event(/tmp/w/e, Create, File)` is delivered. -/
theorem C5_one_create_across_batches_witness :
    (event_recv_seq watch_initial_ctx
        [(fun _ _ => 0, ⟨some true, 1, some (fun _ => some (some (some "/tmp/w/e"))),
            some (fun _ => 0x10100)⟩),
          (fun _ _ => 0, ⟨some true, 1, some (fun _ => some (some (some "/tmp/w/e"))),
            some (fun _ => 0x10100)⟩)]).2.countP (is_create_of "/tmp/w/e") = 1
    ∧ (event_recv_seq watch_initial_ctx
        [(fun _ _ => 0, ⟨some true, 1, some (fun _ => some (some (some "/tmp/w/e"))),
            some (fun _ => 0x10100)⟩),
          (fun _ _ => 0, ⟨some true, 1, some (fun _ => some (some (some "/tmp/w/e"))),
            some (fun _ => 0x10100)⟩)]).2
        = [sink_call.one ⟨"/tmp/w/e", effect_type.create, path_type.file⟩] :=
  ⟨(C5_one_create_across_batches
      [(fun _ _ => 0, ⟨some true, 1, some (fun _ => some (some (some "/tmp/w/e"))),
          some (fun _ => 0x10100)⟩),
        (fun _ _ => 0, ⟨some true, 1, some (fun _ => some (some (some "/tmp/w/e"))),
          some (fun _ => 0x10100)⟩)]
      "/tmp/w/e" [⟨fun _ => 0, "/tmp/w/e", 0x10100⟩] [] ⟨fun _ => 0, "/tmp/w/e", 0x10100⟩
      rfl rfl (by decide) (by decide) (by simp)).1,
    by decide⟩

end darwin_run_claims

/-! ## Darwin adapter: one event -/

section darwin_event_claims

open wtr darwin

/-- C6.  For an event with the renamed flag, path `p` and slot value `s`: when
`s` is non-empty, `s != p` and `access(s)` fails, the rename calls of the event
are exactly the one pair `(Event(s, Rename, k), Event(p, Rename, k))` and the
slot is cleared; in every other case no rename call (single or paired) is made
and the slot becomes `p`.  Every pair delivered has `from != to` and `from`
absent on disk.  The two rename events of `mv /tmp/w/c /tmp/w/d` (slot empty at
first) produce the single pair `(c, d)`. -/
theorem C6_rename_step (access : String → Int) (ctx : ctx_type) (p : String) (flags : Nat)
    (h : flags &&& fsev_flag_effect_rename ≠ 0) :
    ((ctx.last_rename_path ≠ "" ∧ fs.path_eq ctx.last_rename_path p = false
        ∧ access ctx.last_rename_path = -1) →
      (event_recv_one access ctx p flags).2.filter is_rename
          = [sink_call.pair ⟨ctx.last_rename_path, effect_type.rename, path_type_of flags⟩
              ⟨p, effect_type.rename, path_type_of flags⟩]
        ∧ (event_recv_one access ctx p flags).1.last_rename_path = "")
    ∧ (¬ (ctx.last_rename_path ≠ "" ∧ fs.path_eq ctx.last_rename_path p = false
        ∧ access ctx.last_rename_path = -1) →
      (event_recv_one access ctx p flags).2.filter is_rename = []
        ∧ (event_recv_one access ctx p flags).1.last_rename_path = p)
    ∧ (∀ e_from e_to, sink_call.pair e_from e_to ∈ (event_recv_one access ctx p flags).2 →
        fs.path_eq e_from.path e_to.path = false ∧ e_from.path ≠ e_to.path
          ∧ access e_from.path = -1)
    ∧ (event_recv (fun _ q => if q = "/tmp/w/c" then -1 else 0) watch_initial_ctx
          ⟨some true, 2,
            some (fun i => some (some (some (if i = 0 then "/tmp/w/c" else "/tmp/w/d")))),
            some (fun _ => kFSEventStreamEventFlagItemRenamed
                            ||| kFSEventStreamEventFlagItemIsFile)⟩).2
        = [sink_call.pair ⟨"/tmp/w/c", effect_type.rename, path_type.file⟩
            ⟨"/tmp/w/d", effect_type.rename, path_type.file⟩] := by
  have hany : flags &&& fsev_flag_effect_any ≠ 0 :=
    (effect_any_iff flags).2 (Or.inr (Or.inr (Or.inr h)))
  refine ⟨?_, ?_, ?_, by decide⟩
  · intro hc
    refine ⟨?_, ?_⟩
    · rw [one_calls _ _ _ _ hany]
      simp only [List.filter_append]
      split_ifs <;> simp_all [is_rename]
    · rw [one_slot _ _ _ _ h, if_pos hc]
  · intro hc
    refine ⟨?_, ?_⟩
    · rw [one_calls _ _ _ _ hany]
      simp only [List.filter_append]
      split_ifs <;> simp_all [is_rename]
    · rw [one_slot _ _ _ _ h, if_neg hc]
  · intro e_from e_to hmem
    rw [one_calls _ _ _ _ hany] at hmem
    simp only [List.mem_append] at hmem
    have hpair : ctx.last_rename_path ≠ "" ∧ fs.path_eq ctx.last_rename_path p = false
        ∧ access ctx.last_rename_path = -1 ∧ e_from.path = ctx.last_rename_path
        ∧ e_to.path = p := by
      rcases hmem with ((hm | hm) | hm) | hm
      · split_ifs at hm <;> simp at hm
      · split_ifs at hm <;> simp at hm
      · split_ifs at hm <;> simp at hm
      · split_ifs at hm with hc
        · simp only [List.mem_singleton, sink_call.pair.injEq] at hm
          obtain ⟨h1, h2⟩ := hm
          subst h1 h2
          exact ⟨hc.2.1, hc.2.2.1, hc.2.2.2, rfl, rfl⟩
        · simp at hm
    obtain ⟨_, hne, hacc, hf, ht⟩ := hpair
    rw [hf, ht]
    refine ⟨hne, ?_, hacc⟩
    intro heq
    rw [heq] at hne
    simp [fs.path_eq] at hne

/-- C6, applied to the second rename event of `mv /tmp/w/c /tmp/w/d`. -/
theorem C6_rename_step_witness :
    (event_recv_one (fun q => if q = "/tmp/w/c" then -1 else 0) ⟨∅, "/tmp/w/c"⟩ "/tmp/w/d"
        0x10800).1.last_rename_path = "" :=
  ((C6_rename_step (fun q => if q = "/tmp/w/c" then -1 else 0) ⟨∅, "/tmp/w/c"⟩ "/tmp/w/d"
      0x10800 (by decide)).1 (by decide)).2


/-- C7.  For an event with the created flag, path `p` and seen-created set
`S`: the event delivers a `Create` for `p` exactly when `p` is not in `S`; the
create block delivers that one event or nothing accordingly; after the block
`p` is in the set, and the membership of every other path is as before. -/
theorem C7_create_step (access : String → Int) (ctx : ctx_type) (p : String) (flags : Nat)
    (pt : path_type) (h : flags &&& fsev_flag_effect_create ≠ 0) :
    ((∃ c ∈ (event_recv_one access ctx p flags).2, is_create_of p c = true)
        ↔ p ∉ ctx.seen_created_paths)
    ∧ (event_recv_one_create ctx p pt flags).2
        = (if p ∉ ctx.seen_created_paths
            then [sink_call.one ⟨p, effect_type.create, pt⟩] else [])
    ∧ p ∈ (event_recv_one_create ctx p pt flags).1.seen_created_paths
    ∧ (∀ q, q ≠ p →
        (q ∈ (event_recv_one_create ctx p pt flags).1.seen_created_paths
          ↔ q ∈ ctx.seen_created_paths)) := by
  have hany : flags &&& fsev_flag_effect_any ≠ 0 :=
    (effect_any_iff flags).2 (Or.inl h)
  refine ⟨?_, ?_, ?_, ?_⟩
  · rw [one_calls _ _ _ _ hany]
    by_cases hp : p ∈ ctx.seen_created_paths
    · simp only [hp, not_true_eq_false, and_false, if_false, iff_false, not_exists, not_and,
        List.nil_append, List.mem_append]
      intro c hc
      rcases hc with (hc | hc) | hc
      · split_ifs at hc <;> simp_all [is_create_of]
      · split_ifs at hc <;> simp_all [is_create_of]
      · split_ifs at hc <;> simp_all [is_create_of]
    · simp only [hp, not_false_eq_true, iff_true]
      refine ⟨sink_call.one ⟨p, effect_type.create, path_type_of flags⟩, ?_, ?_⟩
      · simp [h]
      · simp [is_create_of]
  · rw [create_calls]
    simp [h]
  · unfold event_recv_one_create
    split_ifs <;> simp_all
  · intro q hq
    unfold event_recv_one_create
    split_ifs <;> simp_all

/-- C7, applied to a created event for `/tmp/w/e` when the set is empty. -/
theorem C7_create_step_witness :
    "/tmp/w/e" ∈ (event_recv_one_create ⟨∅, ""⟩ "/tmp/w/e" path_type.file
        0x10100).1.seen_created_paths :=
  (C7_create_step (fun _ => 0) ⟨∅, ""⟩ "/tmp/w/e" 0x10100 path_type.file (by decide)).2.2.1

/-- C8.  For an event with the removed flag, path `p` and seen-created set `S`
at the destroy block: the block delivers a `Destroy` for `p` exactly when `p`
is in `S` (for the whole event: when `p` is in the set the create block
leaves); after the block `p` is not in the set, and the membership of every
other path is as before. -/
theorem C8_destroy_step (access : String → Int) (ctx : ctx_type) (p : String) (flags : Nat)
    (pt : path_type) (h : flags &&& fsev_flag_effect_remove ≠ 0) :
    (event_recv_one_remove ctx p pt flags).2
        = (if p ∈ ctx.seen_created_paths
            then [sink_call.one ⟨p, effect_type.destroy, pt⟩] else [])
    ∧ p ∉ (event_recv_one_remove ctx p pt flags).1.seen_created_paths
    ∧ (∀ q, q ≠ p →
        (q ∈ (event_recv_one_remove ctx p pt flags).1.seen_created_paths
          ↔ q ∈ ctx.seen_created_paths))
    ∧ ((∃ c ∈ (event_recv_one access ctx p flags).2, is_destroy_of p c = true)
        ↔ p ∈ (event_recv_one_create ctx p (path_type_of flags)
                flags).1.seen_created_paths) := by
  have hany : flags &&& fsev_flag_effect_any ≠ 0 :=
    (effect_any_iff flags).2 (Or.inr (Or.inl h))
  refine ⟨?_, ?_, ?_, ?_⟩
  · rw [remove_calls]
    simp [h]
  · unfold event_recv_one_remove
    split_ifs <;> simp_all
  · intro q hq
    unfold event_recv_one_remove
    split_ifs <;> simp_all
  · rw [one_calls _ _ _ _ hany]
    by_cases hp : p ∈ (event_recv_one_create ctx p (path_type_of flags)
        flags).1.seen_created_paths
    · simp only [hp, iff_true]
      refine ⟨sink_call.one ⟨p, effect_type.destroy, path_type_of flags⟩, ?_, ?_⟩
      · simp [h, hp]
      · simp [is_destroy_of]
    · simp only [hp, and_false, if_false, iff_false, not_exists, not_and,
        List.append_nil, List.mem_append]
      intro c hc
      rcases hc with (hc | hc) | hc
      · split_ifs at hc <;> simp_all [is_destroy_of]
      · split_ifs at hc <;> simp_all [is_destroy_of]
      · split_ifs at hc <;> simp_all [is_destroy_of]

/-- C8, applied to a removed event for `/tmp/w/a` when the set holds `/tmp/w/a`. -/
theorem C8_destroy_step_witness :
    "/tmp/w/a" ∉ (event_recv_one_remove ⟨{"/tmp/w/a"}, ""⟩ "/tmp/w/a" path_type.file
        0x10200).1.seen_created_paths :=
  (C8_destroy_step (fun _ => 0) ⟨{"/tmp/w/a"}, ""⟩ "/tmp/w/a" 0x10200 path_type.file
    (by decide)).2.1

/-- C9.  For an event with at least one effect flag, the sink calls made for
it are a subsequence of `[Create, Destroy, Modify, Rename pair]` (each for the
event's path and kind) in that order, each call occurs at most once, and each
occurs only if its effect flag is set. -/
theorem C9_effect_order (access : String → Int) (ctx : ctx_type) (p : String) (flags : Nat)
    (h : flags &&& fsev_flag_effect_any ≠ 0) :
    List.Sublist (event_recv_one access ctx p flags).2
        [sink_call.one ⟨p, effect_type.create, path_type_of flags⟩,
         sink_call.one ⟨p, effect_type.destroy, path_type_of flags⟩,
         sink_call.one ⟨p, effect_type.modify, path_type_of flags⟩,
         sink_call.pair ⟨ctx.last_rename_path, effect_type.rename, path_type_of flags⟩
           ⟨p, effect_type.rename, path_type_of flags⟩]
    ∧ (event_recv_one access ctx p flags).2.Nodup
    ∧ (sink_call.one ⟨p, effect_type.create, path_type_of flags⟩
          ∈ (event_recv_one access ctx p flags).2 → flags &&& fsev_flag_effect_create ≠ 0)
    ∧ (sink_call.one ⟨p, effect_type.destroy, path_type_of flags⟩
          ∈ (event_recv_one access ctx p flags).2 → flags &&& fsev_flag_effect_remove ≠ 0)
    ∧ (sink_call.one ⟨p, effect_type.modify, path_type_of flags⟩
          ∈ (event_recv_one access ctx p flags).2 → flags &&& fsev_flag_effect_modify ≠ 0)
    ∧ (sink_call.pair ⟨ctx.last_rename_path, effect_type.rename, path_type_of flags⟩
            ⟨p, effect_type.rename, path_type_of flags⟩
          ∈ (event_recv_one access ctx p flags).2 → flags &&& fsev_flag_effect_rename ≠ 0) := by
  have hsub : List.Sublist (event_recv_one access ctx p flags).2
        [sink_call.one ⟨p, effect_type.create, path_type_of flags⟩,
         sink_call.one ⟨p, effect_type.destroy, path_type_of flags⟩,
         sink_call.one ⟨p, effect_type.modify, path_type_of flags⟩,
         sink_call.pair ⟨ctx.last_rename_path, effect_type.rename, path_type_of flags⟩
           ⟨p, effect_type.rename, path_type_of flags⟩] := by
    rw [one_calls _ _ _ _ h]
    exact List.Sublist.append
      (List.Sublist.append
        (List.Sublist.append (ite_sublist_singleton _ _) (ite_sublist_singleton _ _))
        (ite_sublist_singleton _ _))
      (ite_sublist_singleton _ _)
  refine ⟨hsub, hsub.nodup (by simp), ?_, ?_, ?_, ?_⟩
  all_goals
    rw [one_calls _ _ _ _ h]
    simp only [List.mem_append]
    intro hm
    rcases hm with ((hm | hm) | hm) | hm
    all_goals split_ifs at hm <;> simp_all

/-- C9, applied to an event with the created and the modified flag. -/
theorem C9_effect_order_witness :
    (event_recv_one (fun _ => 0) ⟨∅, ""⟩ "/tmp/w/b" 0x11100).2.Nodup :=
  (C9_effect_order (fun _ => 0) ⟨∅, ""⟩ "/tmp/w/b" 0x11100 (by decide)).2.1

/-- C10.  For an event whose flags have at least one of the modified,
inode-meta, finder-info, owner-change or xattr-mod bits, the `Modify` calls of
the event are exactly the one `Event(path, Modify, kind)`, whatever the
seen-created set and the rename slot; and the modify block leaves both
unchanged. -/
theorem C10_modify_step (access : String → Int) (ctx : ctx_type) (p : String) (flags : Nat)
    (pt : path_type)
    (h : flags &&& kFSEventStreamEventFlagItemModified ≠ 0
      ∨ flags &&& kFSEventStreamEventFlagItemInodeMetaMod ≠ 0
      ∨ flags &&& kFSEventStreamEventFlagItemFinderInfoMod ≠ 0
      ∨ flags &&& kFSEventStreamEventFlagItemChangeOwner ≠ 0
      ∨ flags &&& kFSEventStreamEventFlagItemXattrMod ≠ 0) :
    (event_recv_one access ctx p flags).2.filter is_modify
        = [sink_call.one ⟨p, effect_type.modify, path_type_of flags⟩]
    ∧ (event_recv_one_modify ctx p pt flags).2 = [sink_call.one ⟨p, effect_type.modify, pt⟩]
    ∧ (event_recv_one_modify ctx p pt flags).1 = ctx := by
  have hmod : flags &&& fsev_flag_effect_modify ≠ 0 := (effect_modify_iff flags).2 h
  have hany : flags &&& fsev_flag_effect_any ≠ 0 :=
    (effect_any_iff flags).2 (Or.inr (Or.inr (Or.inl hmod)))
  refine ⟨?_, ?_, modify_state _ _ _ _⟩
  · rw [one_calls _ _ _ _ hany]
    simp only [List.filter_append]
    split_ifs <;> simp_all [is_modify]
  · rw [modify_calls]
    simp [hmod]

/-- C10, applied to a modified event for the existing file `/tmp/w/b`, a path
never reported as created. -/
theorem C10_modify_step_witness :
    (event_recv_one (fun _ => 0) ⟨∅, ""⟩ "/tmp/w/b" 0x11000).2.filter is_modify
      = [sink_call.one ⟨"/tmp/w/b", effect_type.modify, path_type_of 0x11000⟩] :=
  (C10_modify_step (fun _ => 0) ⟨∅, ""⟩ "/tmp/w/b" 0x11000 path_type.file
    (Or.inl (by decide))).1

end darwin_event_claims

/-! ## Darwin adapter: events without an effect, and the path kind -/

section darwin_kind_claims

open wtr darwin

/-- C11.  For every path and every flag word with none of the created,
removed, modify-group or renamed bits, `event_recv_one` makes exactly one sink
call, `Event(path, Other, kind)` with the kind classified from the flags, and
leaves the seen-created set and the rename slot unchanged.  A failed path
extraction (a null at any of its four steps) gives the empty path, for which
the same holds. -/
theorem C11_no_effect_flag (access : String → Int) (ctx : ctx_type) (path : String)
    (flags : Nat)
    (h : flags &&& fsev_flag_effect_create = 0 ∧ flags &&& fsev_flag_effect_remove = 0
      ∧ flags &&& fsev_flag_effect_modify = 0 ∧ flags &&& fsev_flag_effect_rename = 0) :
    event_recv_one access ctx path flags
        = (ctx, [sink_call.one ⟨path, effect_type.other, path_type_of flags⟩])
    ∧ event_recv_one access ctx "" flags
        = (ctx, [sink_call.one ⟨"", effect_type.other, path_type_of flags⟩])
    ∧ (∀ i, path_from_event_at none i = "")
    ∧ (∀ i, path_from_event_at (some (fun _ => none)) i = "")
    ∧ (∀ i, path_from_event_at (some (fun _ => some none)) i = "")
    ∧ (∀ i, path_from_event_at (some (fun _ => some (some none))) i = "")
    ∧ (∀ i (arr : cf_array) (s : String), arr i = some (some (some s)) →
        path_from_event_at (some arr) i = s) := by
  have hany : flags &&& fsev_flag_effect_any = 0 := by
    by_contra hne
    rcases (effect_any_iff flags).1 hne with h1 | h1 | h1 | h1
    · exact h1 h.1
    · exact h1 h.2.1
    · exact h1 h.2.2.1
    · exact h1 h.2.2.2
  refine ⟨?_, ?_, fun _ => rfl, fun _ => rfl, fun _ => rfl, fun _ => rfl, ?_⟩
  · unfold event_recv_one
    rw [if_pos hany]
  · unfold event_recv_one
    rw [if_pos hany]
  · intro i arr s hs
    simp [path_from_event_at, hs]

/-- C11, applied to an event whose path extraction failed and whose flag word
has the is-file bit only, in a state with a seen path and a filled slot. -/
theorem C11_no_effect_flag_witness :
    event_recv_one (fun _ => 0) ⟨{"/tmp/w/a"}, "/tmp/w/c"⟩ "" 0x10000
      = (⟨{"/tmp/w/a"}, "/tmp/w/c"⟩,
          [sink_call.one ⟨"", effect_type.other, path_type_of 0x10000⟩]) :=
  (C11_no_effect_flag (fun _ => 0) ⟨{"/tmp/w/a"}, "/tmp/w/c"⟩ "" 0x10000
    ⟨by decide, by decide, by decide, by decide⟩).1

/-- C12.  For every flag word, every event `event_recv_one` emits for it (a
single event, or either event of a rename pair) has the kind: `file` if the
is-file bit is set; else `dir` if the is-dir bit is set; else `sym_link` if
the is-symlink bit is set; else `hard_link` if the is-hardlink or the
is-last-hardlink bit is set; else `other`.  It is never `watcher`. -/
theorem C12_kind_classification (access : String → Int) (ctx : ctx_type) (path : String)
    (flags : Nat) :
    (∀ c ∈ (event_recv_one access ctx path flags).2, ∀ e ∈ events_of c,
        e.path_kind
          = (if flags &&& kFSEventStreamEventFlagItemIsFile ≠ 0 then path_type.file
            else if flags &&& kFSEventStreamEventFlagItemIsDir ≠ 0 then path_type.dir
            else if flags &&& kFSEventStreamEventFlagItemIsSymlink ≠ 0 then path_type.sym_link
            else if flags &&& kFSEventStreamEventFlagItemIsHardlink ≠ 0
                ∨ flags &&& kFSEventStreamEventFlagItemIsLastHardlink ≠ 0
              then path_type.hard_link
            else path_type.other))
    ∧ (∀ c ∈ (event_recv_one access ctx path flags).2, ∀ e ∈ events_of c,
        e.path_kind ≠ path_type.watcher) := by
  have hchain : path_type_of flags
      = (if flags &&& kFSEventStreamEventFlagItemIsFile ≠ 0 then path_type.file
        else if flags &&& kFSEventStreamEventFlagItemIsDir ≠ 0 then path_type.dir
        else if flags &&& kFSEventStreamEventFlagItemIsSymlink ≠ 0 then path_type.sym_link
        else if flags &&& kFSEventStreamEventFlagItemIsHardlink ≠ 0
            ∨ flags &&& kFSEventStreamEventFlagItemIsLastHardlink ≠ 0
          then path_type.hard_link
        else path_type.other) := by
    unfold path_type_of fsev_flag_path_file fsev_flag_path_dir fsev_flag_path_sym_link
      fsev_flag_path_hard_link
    simp only [aux.land_lor_ne_zero]
  have hkind := one_kind access ctx path flags
  refine ⟨?_, ?_⟩
  · intro c hc e he
    rw [hkind c hc e he, hchain]
  · intro c hc e he
    rw [hkind c hc e he]
    exact fsev_path_type_ne_watcher flags

end darwin_kind_claims

/-! ## Linux adapter: records, the watch-descriptor map and setup -/

section linux_record_claims

open wtr inotify

/-- C13.  For a record without the overflow bit whose descriptor is in the
map, the devel `do_event_recv` emits one event whose kind is `dir` if
`IN_ISDIR` is set and `file` otherwise, and whose effect is `create` if
`IN_CREATE` is set; else `destroy` if `IN_DELETE` is set; else `rename` if
`IN_MOVED_FROM` or `IN_MOVED_TO` is set; else `modify` if `IN_MODIFY` is set;
else `other`.  The legacy adapter does the same for the record, and computes
the same effect and kind for every mask. -/
theorem C13_record_classification (add : Nat → String → Int) (base_path : String)
    (st : recv_state) (ev : inotify_event) (parent : String)
    (hov : ev.mask &&& IN_Q_OVERFLOW = 0) (hfind : pm_find st.pm ev.wd = some parent) :
    (∃ st1, do_event_recv_record add base_path st ev
        = Except.ok (st1, [sink_call.one
            ⟨fs.append parent ev.name,
             (if ev.mask &&& IN_CREATE ≠ 0 then effect_type.create
              else if ev.mask &&& IN_DELETE ≠ 0 then effect_type.destroy
              else if ev.mask &&& IN_MOVED_FROM ≠ 0 ∨ ev.mask &&& IN_MOVED_TO ≠ 0
                then effect_type.rename
              else if ev.mask &&& IN_MODIFY ≠ 0 then effect_type.modify
              else effect_type.other),
             (if ev.mask &&& IN_ISDIR ≠ 0 then path_type.dir else path_type.file)⟩]))
    ∧ legacy_inotify.do_event_recv_record add base_path st ev
        = do_event_recv_record add base_path st ev
    ∧ (∀ mask, legacy_inotify.what_of mask = effect_type_of mask
        ∧ legacy_inotify.kind_of mask = path_type_of mask) := by
  refine ⟨?_, ?_, fun mask => ⟨rfl, rfl⟩⟩
  · rw [record_found add base_path st ev parent hov hfind, effect_type_of_chain]
    exact ⟨_, rfl⟩
  · unfold legacy_inotify.do_event_recv_record do_event_recv_record
    rw [if_pos hov, if_pos hov]
    rfl

/-- C13, applied to the record of a file moved out of `/tmp/w`. -/
theorem C13_record_classification_witness :
    legacy_inotify.do_event_recv_record (fun _ _ => -1) "/tmp/w" ⟨[(1, "/tmp/w")], {1}, 1⟩
        ⟨1, IN_MOVED_FROM, 7, 16, "c"⟩
      = do_event_recv_record (fun _ _ => -1) "/tmp/w" ⟨[(1, "/tmp/w")], {1}, 1⟩
        ⟨1, IN_MOVED_FROM, 7, 16, "c"⟩ :=
  (C13_record_classification (fun _ _ => -1) "/tmp/w" ⟨[(1, "/tmp/w")], {1}, 1⟩
    ⟨1, IN_MOVED_FROM, 7, 16, "c"⟩ "/tmp/w" (by decide) (by decide)).2.1

/-- C14 (the code departs from the claim).  A record with the overflow bit
delivers the one event `("e/self/overflow@" ++ base_path, other, watcher)`
without reading or changing the map, whatever its other bits and its
descriptor.  But the loop then moves the record pointer by 256 bytes: in a
read of 48 bytes holding an overflow record (16 bytes) and the CREATE record
of `a` at byte 16, the record that follows the overflow record is never
processed. -/
theorem C14_overflow_record_then_skip :
    (∀ (add : Nat → String → Int) (base_path : String) (st : recv_state)
        (ev : inotify_event), ev.mask &&& IN_Q_OVERFLOW ≠ 0 →
        do_event_recv_record add base_path st ev
          = Except.ok (st, [sink_call.one
              ⟨"e/self/overflow@" ++ base_path, effect_type.other, path_type.watcher⟩]))
    ∧ read_len [⟨-1, IN_Q_OVERFLOW, 0, 0, ""⟩, ⟨1, IN_CREATE, 0, 16, "a"⟩] = 48
    ∧ event_at [⟨-1, IN_Q_OVERFLOW, 0, 0, ""⟩, ⟨1, IN_CREATE, 0, 16, "a"⟩] 16
        = some ⟨1, IN_CREATE, 0, 16, "a"⟩
    ∧ do_event_recv (fun _ _ => -1) "/tmp/w"
        [read_result.records [⟨-1, IN_Q_OVERFLOW, 0, 0, ""⟩, ⟨1, IN_CREATE, 0, 16, "a"⟩]]
        ⟨[(1, "/tmp/w")], {1}, 1⟩
      = Except.ok (true, ⟨[(1, "/tmp/w")], {1}, 1⟩,
          [sink_call.one ⟨"e/self/overflow@/tmp/w", effect_type.other, path_type.watcher⟩]) := by
  refine ⟨fun add base_path st ev h => record_overflow add base_path st ev h, ?_, ?_, ?_⟩
  all_goals decide

/-- C15.  A record with `IN_CREATE` and `IN_ISDIR` and name `n` arrives on a
descriptor mapped to `P`, and the watch add returns the descriptor `w`: the
record is delivered as `Event(P/n, Create, Directory)`, afterwards the map maps
`w` to `P/n` and every other key as before, and a record with descriptor `w`,
name `x` and `IN_CREATE` (no `IN_ISDIR`) is then delivered as
`Event(P/n/x, Create, File)`.  The records of `mkdir /tmp/w/sub` and
`touch /tmp/w/sub/x` yield `Event(/tmp/w/sub, Create, Directory)` followed by
`Event(/tmp/w/sub/x, Create, File)`. -/
theorem C15_new_subdirectory_watched (add : Nat → String → Int) (base_path : String)
    (st : recv_state) (ev : inotify_event) (P : String) (w : Int)
    (hov : ev.mask &&& IN_Q_OVERFLOW = 0) (hcreate : ev.mask &&& IN_CREATE ≠ 0)
    (hdir : ev.mask &&& IN_ISDIR ≠ 0) (hfind : pm_find st.pm ev.wd = some P)
    (hadd : add st.adds (fs.append P ev.name) = w) (hw : 0 < w) :
    (∃ st1, do_event_recv_record add base_path st ev
        = Except.ok (st1, [sink_call.one
            ⟨fs.append P ev.name, effect_type.create, path_type.dir⟩])
      ∧ pm_find st1.pm w = some (fs.append P ev.name)
      ∧ (∀ k, k ≠ w → pm_find st1.pm k = pm_find st.pm k)
      ∧ (∀ ev2 : inotify_event, ev2.wd = w → ev2.mask &&& IN_Q_OVERFLOW = 0 →
          ev2.mask &&& IN_CREATE ≠ 0 → ev2.mask &&& IN_ISDIR = 0 →
          ∃ st2, do_event_recv_record add base_path st1 ev2
            = Except.ok (st2, [sink_call.one
                ⟨fs.append (fs.append P ev.name) ev2.name, effect_type.create,
                  path_type.file⟩])))
    ∧ do_event_recv (fun _ p => if p = "/tmp/w/sub" then 2 else -1) "/tmp/w"
        [read_result.records [⟨1, IN_CREATE ||| IN_ISDIR, 0, 16, "sub"⟩],
         read_result.records [⟨2, IN_CREATE, 0, 16, "x"⟩]]
        ⟨[(1, "/tmp/w")], {1}, 1⟩
      = Except.ok (true, ⟨[(2, "/tmp/w/sub"), (1, "/tmp/w")], {2, 1}, 2⟩,
          [sink_call.one ⟨"/tmp/w/sub", effect_type.create, path_type.dir⟩,
           sink_call.one ⟨"/tmp/w/sub/x", effect_type.create, path_type.file⟩]) := by
  have hpt : path_type_of ev.mask = path_type.dir := (path_type_dir_iff _).2 hdir
  have het : effect_type_of ev.mask = effect_type.create := (effect_create_iff _).2 hcreate
  refine ⟨?_, by decide⟩
  rw [record_found add base_path st ev P hov hfind, if_pos ⟨hpt, het⟩, hadd, hpt, het]
  have hr : inotify_add_watch w st.active = (w, insert w st.active) := by
    simp [inotify_add_watch, hw]
  rw [hr]
  refine ⟨_, rfl, pm_find_assign_same _ _ _, fun k hk => pm_find_assign_ne _ _ _ _ hk, ?_⟩
  intro ev2 hwd hov2 hc2 hd2
  have hfind2 : pm_find (pm_assign st.pm w (fs.append P ev.name)) ev2.wd
      = some (fs.append P ev.name) := by
    rw [hwd]; exact pm_find_assign_same _ _ _
  have hpt2 : path_type_of ev2.mask = path_type.file := by
    unfold path_type_of
    rw [if_neg (by simpa using hd2)]
  have het2 : effect_type_of ev2.mask = effect_type.create := (effect_create_iff _).2 hc2
  rw [record_found add base_path _ ev2 _ hov2 hfind2, hpt2, het2]
  exact ⟨_, rfl⟩

/-- C15, applied to the record of `mkdir /tmp/w/sub` with the watch add returning 2. -/
theorem C15_new_subdirectory_watched_witness :
    ∃ st1, do_event_recv_record (fun _ p => if p = "/tmp/w/sub" then 2 else -1) "/tmp/w"
        ⟨[(1, "/tmp/w")], {1}, 1⟩ ⟨1, IN_CREATE ||| IN_ISDIR, 0, 16, "sub"⟩
        = Except.ok (st1, [sink_call.one
            ⟨fs.append "/tmp/w" "sub", effect_type.create, path_type.dir⟩])
      ∧ pm_find st1.pm 2 = some (fs.append "/tmp/w" "sub")
      ∧ (∀ k, k ≠ 2 → pm_find st1.pm k = pm_find [(1, "/tmp/w")] k)
      ∧ (∀ ev2 : inotify_event, ev2.wd = 2 → ev2.mask &&& IN_Q_OVERFLOW = 0 →
          ev2.mask &&& IN_CREATE ≠ 0 → ev2.mask &&& IN_ISDIR = 0 →
          ∃ st2, do_event_recv_record (fun _ p => if p = "/tmp/w/sub" then 2 else -1)
              "/tmp/w" st1 ev2
            = Except.ok (st2, [sink_call.one
                ⟨fs.append (fs.append "/tmp/w" "sub") ev2.name, effect_type.create,
                  path_type.file⟩])) :=
  (C15_new_subdirectory_watched (fun _ p => if p = "/tmp/w/sub" then 2 else -1) "/tmp/w"
    ⟨[(1, "/tmp/w")], {1}, 1⟩ ⟨1, IN_CREATE ||| IN_ISDIR, 0, 16, "sub"⟩ "/tmp/w" 2
    (by decide) (by decide) (by decide) (by decide) (by decide) (by decide)).1

/-- C16 (the code departs from the claim).  `path_map` leaves the keys of the
map equal to the active watch descriptors, and a record keeps them equal
unless it is a directory `Create` whose `inotify_add_watch` fails: then
`pm[-1] = path` stores the failure value as a key.  For the record of
`mkdir /tmp/w/sub` with the add failing the map gets the key `-1`, which is
no active descriptor. -/
theorem C16_failed_add_breaks_map_invariant :
    (∀ (add : Nat → String → Int) (base_path : String) (fsv : fs_view)
        (sr : sys_resource_type), keys_eq_active (path_map add base_path fsv sr).1)
    ∧ (∀ (add : Nat → String → Int) (base_path : String) (st st1 : recv_state)
        (ev : inotify_event) (calls : List sink_call), keys_eq_active st →
        do_event_recv_record add base_path st ev = Except.ok (st1, calls) →
        (∀ parent, pm_find st.pm ev.wd = some parent →
          ev.mask &&& IN_Q_OVERFLOW = 0 → path_type_of ev.mask = path_type.dir →
          effect_type_of ev.mask = effect_type.create →
          0 < add st.adds (fs.append parent ev.name)) →
        keys_eq_active st1)
    ∧ keys_eq_active ⟨[(1, "/tmp/w")], {1}, 1⟩
    ∧ do_event_recv_record (fun _ _ => -1) "/tmp/w" ⟨[(1, "/tmp/w")], {1}, 1⟩
        ⟨1, IN_CREATE ||| IN_ISDIR, 0, 16, "sub"⟩
      = Except.ok (⟨[(-1, "/tmp/w/sub"), (1, "/tmp/w")], {1}, 2⟩,
          [sink_call.one ⟨"/tmp/w/sub", effect_type.create, path_type.dir⟩])
    ∧ ¬ keys_eq_active ⟨[(-1, "/tmp/w/sub"), (1, "/tmp/w")], {1}, 2⟩ := by
  refine ⟨path_map_keys, ?_, ?_, by decide, ?_⟩
  · intro add base_path st st1 ev calls hk h hadd
    exact record_keeps_keys add base_path st st1 ev calls hk h hadd
  · unfold keys_eq_active; decide
  · unfold keys_eq_active; decide

end linux_record_claims

/-! ## Linux adapter: `watch`, its setup errors and its diagnostics -/

section linux_watch_claims

open wtr inotify

/-- C17, as stated, fails: when `inotify_init1` fails, `system_unfold` delivers
`e/sys/inotify_init` and `watch` then delivers `e/self/sys_resource@/tmp/w`,
two diagnostics for the one invocation. -/
theorem C17_two_diagnostics_on_init_failure :
    watch ⟨-1, 0, 0⟩ (fun _ _ => -1) ⟨none, []⟩ (fun _ => -1) "/tmp/w" []
      = Except.ok ⟨some false,
          [sink_call.one ⟨"e/sys/inotify_init", effect_type.other, path_type.watcher⟩,
           sink_call.one ⟨"e/self/sys_resource@/tmp/w", effect_type.other,
             path_type.watcher⟩],
          [-1, -1]⟩
    ∧ [sink_call.one ⟨"e/sys/inotify_init", effect_type.other, path_type.watcher⟩,
       sink_call.one ⟨"e/self/sys_resource@/tmp/w", effect_type.other,
         path_type.watcher⟩].countP is_diagnostic = 2 := by
  decide

/-- C17, amended.  In each setup failure `watch` returns `false` whatever the
event loop would have met (it is not entered).  When `inotify_init1`,
`epoll_create1` or `epoll_ctl` fails, exactly two diagnostics are delivered:
the token of the failed call, then `e/self/sys_resource@` with the base path.
When the descriptors are obtained and the base path cannot be watched, so that
the initial map is empty, exactly one is delivered: `e/self/path_map@` with the
base path. -/
theorem C17_setup_failures (sys : sys_answers) (add : Nat → String → Int) (fsv : fs_view)
    (close : Int → Int) (path : String) (iterations : List epoll_outcome) :
    (sys.inotify_init < 0 →
      watch sys add fsv close path iterations
        = Except.ok ⟨some false,
            [sink_call.one ⟨"e/sys/inotify_init", effect_type.other, path_type.watcher⟩,
             sink_call.one ⟨"e/self/sys_resource@" ++ path, effect_type.other,
               path_type.watcher⟩],
            (system_fold close ⟨false, sys.inotify_init, -1, 0, sys.inotify_init⟩).2⟩)
    ∧ (0 ≤ sys.inotify_init → sys.epoll_create < 0 →
      watch sys add fsv close path iterations
        = Except.ok ⟨some false,
            [sink_call.one ⟨"e/sys/epoll_create", effect_type.other, path_type.watcher⟩,
             sink_call.one ⟨"e/self/sys_resource@" ++ path, effect_type.other,
               path_type.watcher⟩],
            (system_fold close
              ⟨false, sys.inotify_init, sys.epoll_create, 0, sys.inotify_init⟩).2⟩)
    ∧ (0 ≤ sys.inotify_init → 0 ≤ sys.epoll_create → sys.epoll_ctl < 0 →
      watch sys add fsv close path iterations
        = Except.ok ⟨some false,
            [sink_call.one ⟨"e/sys/epoll_ctl", effect_type.other, path_type.watcher⟩,
             sink_call.one ⟨"e/self/sys_resource@" ++ path, effect_type.other,
               path_type.watcher⟩],
            (system_fold close
              ⟨false, sys.inotify_init, sys.epoll_create, 0, sys.inotify_init⟩).2⟩)
    ∧ (0 ≤ sys.inotify_init → 0 ≤ sys.epoll_create → 0 ≤ sys.epoll_ctl →
      add 0 path ≤ 0 →
      watch sys add fsv close path iterations
        = Except.ok ⟨some false,
            [sink_call.one ⟨"e/self/path_map@" ++ path, effect_type.other,
               path_type.watcher⟩],
            (system_fold close
              ⟨true, sys.inotify_init, sys.epoll_create, EPOLLIN, sys.inotify_init⟩).2⟩) := by
  refine ⟨?_, ?_, ?_, ?_⟩
  · intro h1
    have hn : ¬ 0 ≤ sys.inotify_init := by omega
    simp [watch, system_unfold, system_unfold_do_error, path_map, watch_do_error, hn]
  · intro h1 h2
    have hn : ¬ 0 ≤ sys.epoll_create := by omega
    simp [watch, system_unfold, system_unfold_do_error, path_map, watch_do_error, h1, hn]
  · intro h1 h2 h3
    have hn : ¬ 0 ≤ sys.epoll_ctl := by omega
    simp [watch, system_unfold, system_unfold_do_error, path_map, watch_do_error, h1, h2, hn]
  · intro h1 h2 h3 h4
    have hn : ¬ 0 < add 0 path := by omega
    simp [watch, system_unfold, path_map, do_mark, inotify_add_watch, watch_do_error,
      h1, h2, h3, hn]

/-- C17 amended, applied to a base path that cannot be watched. -/
theorem C17_setup_failures_witness :
    watch ⟨3, 4, 0⟩ (fun _ _ => -1) ⟨none, []⟩ (fun _ => 0) "/tmp/gone"
        [epoll_outcome.ready 3 [read_result.failure]]
      = Except.ok ⟨some false,
          [sink_call.one ⟨"e/self/path_map@" ++ "/tmp/gone", effect_type.other,
             path_type.watcher⟩],
          (system_fold (fun _ => 0) ⟨true, 3, 4, EPOLLIN, 3⟩).2⟩ :=
  (C17_setup_failures ⟨3, 4, 0⟩ (fun _ _ => -1) ⟨none, []⟩ (fun _ => 0) "/tmp/gone"
    [epoll_outcome.ready 3 [read_result.failure]]).2.2.2
    (by decide) (by decide) (by decide) (by decide)

/-- C18.  Every event that `system_unfold`, `path_map`, `do_event_recv` or the
Linux `watch` delivers with the kind `watcher` has a path that equals, or
starts with, one of the diagnostic tokens; so has every event delivered by an
iteration of the record loop in any run of `do_event_recv`, whatever bytes the
record pointer meets and whether the run ends with a result or in the
dereference of the end iterator; and every event built from an inotify record
(a record without the overflow bit) or from an FSEvents flag word has a kind
other than `watcher`. -/
theorem C18_watcher_kind_isolation (sys : sys_answers) (add : Nat → String → Int)
    (fsv : fs_view) (close : Int → Int) (path : String) (iterations : List epoll_outcome)
    (r : watch_result) (sr : sys_resource_type) (reads : List read_result)
    (st st1 : recv_state) (ok : Bool) (calls : List sink_call)
    (hwatch : watch sys add fsv close path iterations = Except.ok r)
    (hrecv : do_event_recv add path reads st = Except.ok (ok, st1, calls)) :
    (∀ c ∈ (system_unfold sys).2, watcher_isolated diagnostic_tokens c)
    ∧ (∀ c ∈ (path_map add path fsv sr).2, watcher_isolated diagnostic_tokens c)
    ∧ (∀ c ∈ calls, watcher_isolated diagnostic_tokens c)
    ∧ (∀ c ∈ r.calls, watcher_isolated diagnostic_tokens c)
    ∧ (∀ (s s1 : recv_state) (ev : inotify_event) (cs : List sink_call),
        ev.mask &&& IN_Q_OVERFLOW = 0 →
        do_event_recv_record add path s ev = Except.ok (s1, cs) →
        ∀ c ∈ cs, ∀ e ∈ events_of c, e.path_kind ≠ path_type.watcher)
    ∧ (∀ (access : String → Int) (ctx : darwin.ctx_type) (p : String) (flags : Nat),
        ∀ c ∈ (darwin.event_recv_one access ctx p flags).2, ∀ e ∈ events_of c,
          e.path_kind ≠ path_type.watcher)
    ∧ (∀ (rs : List read_result) (s : recv_state),
        ∀ p ∈ recv_steps add path rs s, ∀ c ∈ record_calls add path p,
          watcher_isolated diagnostic_tokens c) := by
  refine ⟨?_, ?_, ?_, ?_, ?_, ?_, ?_⟩
  · intro c hc
    exact isolated_mono _ _ c emitted_sub_diagnostic (unfold_isolated sys c hc)
  · intro c hc
    exact isolated_mono _ _ c emitted_sub_diagnostic (path_map_isolated add path fsv sr c hc)
  · intro c hc
    exact isolated_mono _ _ c emitted_sub_diagnostic
      (recv_isolated add path reads st st1 ok calls hrecv c hc)
  · intro c hc
    exact isolated_mono _ _ c emitted_sub_diagnostic
      (watch_isolated sys add fsv close path iterations r hwatch c hc)
  · intro s s1 ev cs hov h c hc e he
    rcases record_cases add path s s1 ev cs h with ⟨hov2, _, _⟩ | ⟨_, parent, _, hcs⟩
    · exact absurd hov hov2
    · subst hcs
      simp only [List.mem_singleton] at hc
      subst hc
      simp only [events_of, List.mem_singleton] at he
      subst he
      exact path_type_of_ne_watcher _
  · intro access ctx p flags c hc e he
    rw [darwin.one_kind access ctx p flags c hc e he]
    exact darwin.fsev_path_type_ne_watcher flags
  · intro rs s p _ c hc
    unfold record_calls at hc
    cases hrec : do_event_recv_record add path p.1 p.2 with
    | error f => rw [hrec] at hc; cases hc
    | ok q =>
      obtain ⟨s1, cs⟩ := q
      rw [hrec] at hc
      exact isolated_mono _ _ c emitted_sub_diagnostic
        (record_isolated add path p.1 s1 p.2 cs hrec c hc)

/-- C18, applied to a run of `watch` whose loop meets a queue overflow and then
a failing `epoll_wait`: the overflow diagnostic carries a token. -/
theorem C18_watcher_kind_isolation_witness :
    watcher_isolated diagnostic_tokens
      (sink_call.one ⟨"e/self/overflow@/tmp/w", effect_type.other, path_type.watcher⟩) :=
  (C18_watcher_kind_isolation ⟨3, 4, 0⟩ (fun _ _ => 1) ⟨some false, []⟩ (fun _ => 0) "/tmp/w"
    [epoll_outcome.ready 3 [read_result.records [⟨-1, IN_Q_OVERFLOW, 0, 0, ""⟩]],
     epoll_outcome.failure]
    ⟨some false,
      [sink_call.one ⟨"e/self/overflow@/tmp/w", effect_type.other, path_type.watcher⟩,
       sink_call.one ⟨"e/sys/epoll_wait@/tmp/w", effect_type.other, path_type.watcher⟩],
      [3]⟩
    ⟨true, 3, 4, EPOLLIN, 3⟩ [] ⟨[], ∅, 0⟩ ⟨[], ∅, 0⟩ true [] (by decide)
    (by decide)).2.2.2.1 _ (List.mem_cons_self _ _)

/-- C20 (the code departs from the claim).  The lambda `close` of `watch` drops
the result of `system_fold`, and no `e/sys/close@` event is built anywhere:
with the base path unwatchable and both closes failing, `watch` calls `close`
on both descriptors and delivers `e/self/path_map@/tmp/w` only; on the normal
exit with both closes failing it delivers nothing.  No run of `watch` delivers
a `watcher` event whose path is `e/sys/close@` followed by the base path. -/
theorem C20_close_failure_is_silent :
    watch ⟨3, 4, 0⟩ (fun _ _ => -1) ⟨none, []⟩ (fun _ => -1) "/tmp/w" []
      = Except.ok ⟨some false,
          [sink_call.one ⟨"e/self/path_map@/tmp/w", effect_type.other, path_type.watcher⟩],
          [3, 4]⟩
    ∧ watch ⟨3, 4, 0⟩ (fun _ _ => 1) ⟨some false, []⟩ (fun _ => -1) "/tmp/w"
        [epoll_outcome.timeout]
      = Except.ok ⟨none, [], [3, 4]⟩
    ∧ (∀ (sys : sys_answers) (add : Nat → String → Int) (fsv : fs_view) (close : Int → Int)
        (path : String) (iterations : List epoll_outcome) (r : watch_result),
        watch sys add fsv close path iterations = Except.ok r →
        ∀ c ∈ r.calls, ∀ e ∈ events_of c, e.path_kind = path_type.watcher →
          e.path ≠ "e/sys/close@" ++ path) := by
  refine ⟨by decide, by decide, ?_⟩
  intro sys add fsv close path iterations r h c hc e he hk heq
  have := watch_isolated sys add fsv close path iterations r h c hc e he hk
  rw [heq] at this
  exact close_token_not_emitted path this

end linux_watch_claims

/-! ## Linux adapter: the drain step, directory options, directory removal and the legacy loop -/

section linux_drain_claims

open wtr inotify

/-- C22 (the code departs from the claim).  The option value handed to the
recursive walk is `skip_permission_denied & follow_directory_symlink`, the
bitwise AND of two different bits: it is `directory_options::none`, with
neither the follow-directory-symlink bit nor the skip-permission-denied bit,
in `path_map` and in the legacy `do_path_map_create` alike.  The OR of the two
has both bits. -/
theorem C22_fs_dir_opt_is_none :
    fs_dir_opt = fs.directory_options_none
    ∧ fs_dir_opt &&& fs.follow_directory_symlink = 0
    ∧ fs_dir_opt &&& fs.skip_permission_denied = 0
    ∧ legacy_inotify.fs_dir_opt = fs.directory_options_none
    ∧ legacy_inotify.fs_dir_opt &&& fs.follow_directory_symlink = 0
    ∧ legacy_inotify.fs_dir_opt &&& fs.skip_permission_denied = 0
    ∧ (fs.skip_permission_denied ||| fs.follow_directory_symlink)
        &&& fs.follow_directory_symlink ≠ 0
    ∧ (fs.skip_permission_denied ||| fs.follow_directory_symlink)
        &&& fs.skip_permission_denied ≠ 0 := by
  decide

/-- C23 (the code departs from the claim).  The record of a removed directory
arrives on the descriptor of its parent, and the code detaches and erases
`record.wd`: with the map `{1 -> /tmp/w, 2 -> /tmp/w/sub}`, the record
`(wd 1, IN_DELETE|IN_ISDIR, "sub")` leaves the entry `2 -> /tmp/w/sub` in the
map and descriptor 2 active, and removes the entry and the watch of the parent
`/tmp/w`; devel and legacy alike.  For every such record the entry of
`record.wd` is the one erased and every other entry is kept. -/
theorem C23_directory_destroy_erases_parent :
    do_event_recv_record (fun _ _ => -1) "/tmp/w"
        ⟨[(1, "/tmp/w"), (2, "/tmp/w/sub")], {1, 2}, 2⟩ ⟨1, IN_DELETE ||| IN_ISDIR, 0, 16, "sub"⟩
      = Except.ok (⟨[(2, "/tmp/w/sub")], ({1, 2} : Finset Int).erase 1, 2⟩,
          [sink_call.one ⟨"/tmp/w/sub", effect_type.destroy, path_type.dir⟩])
    ∧ legacy_inotify.do_event_recv_record (fun _ _ => -1) "/tmp/w"
        ⟨[(1, "/tmp/w"), (2, "/tmp/w/sub")], {1, 2}, 2⟩ ⟨1, IN_DELETE ||| IN_ISDIR, 0, 16, "sub"⟩
      = Except.ok (⟨[(2, "/tmp/w/sub")], ({1, 2} : Finset Int).erase 1, 2⟩,
          [sink_call.one ⟨"/tmp/w/sub", effect_type.destroy, path_type.dir⟩])
    ∧ pm_find [(2, "/tmp/w/sub")] 2 = some "/tmp/w/sub"
    ∧ pm_find [(2, "/tmp/w/sub")] 1 = none
    ∧ (2 : Int) ∈ ({1, 2} : Finset Int).erase 1
    ∧ (1 : Int) ∉ ({1, 2} : Finset Int).erase 1
    ∧ (∀ (add : Nat → String → Int) (base_path : String) (st : recv_state)
        (ev : inotify_event) (parent : String),
        ev.mask &&& IN_Q_OVERFLOW = 0 → ev.mask &&& IN_CREATE = 0 →
        ev.mask &&& IN_DELETE ≠ 0 → ev.mask &&& IN_ISDIR ≠ 0 →
        pm_find st.pm ev.wd = some parent →
        ∃ st1, do_event_recv_record add base_path st ev
            = Except.ok (st1, [sink_call.one
                ⟨fs.append parent ev.name, effect_type.destroy, path_type.dir⟩])
          ∧ pm_find st1.pm ev.wd = none
          ∧ (∀ k, k ≠ ev.wd → pm_find st1.pm k = pm_find st.pm k)
          ∧ st1.active = st.active.erase ev.wd) := by
  refine ⟨by decide, by decide, by decide, by decide, by decide, by decide, ?_⟩
  intro add base_path st ev parent hov hcr hdel hdir hfind
  have hpt : path_type_of ev.mask = path_type.dir := (path_type_dir_iff _).2 hdir
  have het : effect_type_of ev.mask = effect_type.destroy :=
    (effect_destroy_iff _).2 ⟨hcr, hdel⟩
  rw [record_found add base_path st ev parent hov hfind, hpt, het]
  simp only [reduceCtorEq, and_false, if_false, and_self, if_true]
  exact ⟨_, rfl, pm_find_erase_same _ _, fun k hk => pm_find_erase_ne _ _ _ hk, rfl⟩

/-- C25 (the code departs from the claim).  The descriptor 1 is a key of the
map when `do_event_recv` starts.  The record of the removed directory
`/tmp/w/sub` arrives on descriptor 1 and erases the entry of descriptor 1; the
next record on descriptor 1 (the CREATE record of `a`, or the `IN_IGNORED`
record the kernel queues after the watch removal) finds no entry, and
`pm.find(record.wd)->second` dereferences the end iterator; devel and legacy
alike. -/
theorem C25_lookup_fails_after_directory_destroy :
    do_event_recv (fun _ _ => -1) "/tmp/w"
        [read_result.records [⟨1, IN_DELETE ||| IN_ISDIR, 0, 16, "sub"⟩],
         read_result.records [⟨1, IN_CREATE, 0, 16, "a"⟩]]
        ⟨[(1, "/tmp/w"), (2, "/tmp/w/sub")], {1, 2}, 2⟩
      = Except.error fault.end_iterator_deref
    ∧ do_event_recv (fun _ _ => -1) "/tmp/w"
        [read_result.records [⟨1, IN_DELETE ||| IN_ISDIR, 0, 16, "sub"⟩],
         read_result.records [⟨1, IN_IGNORED, 0, 0, ""⟩]]
        ⟨[(1, "/tmp/w"), (2, "/tmp/w/sub")], {1, 2}, 2⟩
      = Except.error fault.end_iterator_deref
    ∧ pm_find [(1, "/tmp/w"), (2, "/tmp/w/sub")] 1 = some "/tmp/w"
    ∧ legacy_inotify.do_event_recv_record (fun _ _ => -1) "/tmp/w"
        ⟨[(1, "/tmp/w"), (2, "/tmp/w/sub")], {1, 2}, 2⟩ ⟨1, IN_DELETE ||| IN_ISDIR, 0, 16, "sub"⟩
      = Except.ok (⟨[(2, "/tmp/w/sub")], ({1, 2} : Finset Int).erase 1, 2⟩,
          [sink_call.one ⟨"/tmp/w/sub", effect_type.destroy, path_type.dir⟩])
    ∧ legacy_inotify.do_event_recv_record (fun _ _ => -1) "/tmp/w"
        ⟨[(2, "/tmp/w/sub")], ({1, 2} : Finset Int).erase 1, 2⟩ ⟨1, IN_CREATE, 0, 16, "a"⟩
      = Except.error fault.end_iterator_deref := by
  decide

/-- C26 (the code departs from the claim).  The increment
`this_event += this_event->len` does not move the pointer when `len` is 0.  The
base path is the file `/tmp/w/f`; the one record of a modification,
`(wd 1, IN_MODIFY, len 0)`, is a well-formed buffer of 16 bytes, and the legacy
loop processes it again and again: whatever the number of iterations allowed,
it has not ended.  So it is for every buffer and every position of the record
pointer at which the `len` read is 0 and the processing leaves the map as it
was. -/
theorem C26_legacy_loop_never_ends :
    (∀ fuel : Nat,
      legacy_inotify.do_event_recv_loop (fun _ _ => -1) "/tmp/w/f"
          (packed [⟨1, IN_MODIFY, 0, 0, ""⟩]) fuel 0 ⟨[(1, "/tmp/w/f")], {1}, 1⟩
        = Except.error fault.out_of_fuel)
    ∧ read_len [⟨1, IN_MODIFY, 0, 0, ""⟩] = 16
    ∧ (packed [⟨1, IN_MODIFY, 0, 0, ""⟩]).len = 16
    ∧ (packed [⟨1, IN_MODIFY, 0, 0, ""⟩]).this_event 0 = ⟨1, IN_MODIFY, 0, 0, ""⟩
    ∧ legacy_inotify.this_event_step ⟨1, IN_MODIFY, 0, 0, ""⟩ = 0
    ∧ legacy_inotify.do_event_recv_record (fun _ _ => -1) "/tmp/w/f"
        ⟨[(1, "/tmp/w/f")], {1}, 1⟩ ⟨1, IN_MODIFY, 0, 0, ""⟩
      = Except.ok (⟨[(1, "/tmp/w/f")], {1}, 1⟩,
          [sink_call.one ⟨"/tmp/w/f/", effect_type.modify, path_type.file⟩])
    ∧ (∀ (add : Nat → String → Int) (base_path : String) (buf : read_buffer)
        (off : Nat) (st : recv_state) (calls : List sink_call) (fuel : Nat),
        off < buf.len → (buf.this_event off).len = 0 →
        legacy_inotify.do_event_recv_record add base_path st (buf.this_event off)
          = Except.ok (st, calls) →
        legacy_inotify.do_event_recv_loop add base_path buf fuel off st
          = Except.error fault.out_of_fuel) := by
  refine ⟨?_, by decide, by decide, by decide, by decide, by decide, ?_⟩
  · intro fuel
    exact legacy_inotify.legacy_loop_stuck (fun _ _ => -1) "/tmp/w/f"
      (packed [⟨1, IN_MODIFY, 0, 0, ""⟩]) 0 ⟨[(1, "/tmp/w/f")], {1}, 1⟩
      [sink_call.one ⟨"/tmp/w/f/", effect_type.modify, path_type.file⟩]
      (by decide) (by decide) (by decide) fuel
  · intro add base_path buf off st calls fuel hoff hlen hrec
    exact legacy_inotify.legacy_loop_stuck add base_path buf off st calls hoff hlen hrec fuel

end linux_drain_claims

/-! ## Darwin adapter: the check of the callback arguments, and the state invariant -/

section darwin_guard_claims

open wtr darwin

/-- C24.  For every count: when the paths pointer is null, or the flags
pointer is null, or the context pointer is null, or the sink of the context is
empty, `event_recv` makes no sink call and returns the state (the seen-created
set and the rename slot) as it was.  Otherwise it is `event_recv_one` applied
in turn to the events of the indices `0 .. count-1`, one per index, in index
order: the event of index `i` has the path `path_from_event_at paths i` and the
flag word `flags[i]`. -/
theorem C24_partial_context_guard (access : Nat → String → Int) (ctx : ctx_type)
    (a : event_recv_args) :
    ((a.paths = none ∨ a.flags = none ∨ a.maybe_ctx = none ∨ a.maybe_ctx = some false) →
      event_recv access ctx a = (ctx, []))
    ∧ (∀ (paths : cf_array) (flags : Nat → Nat),
        a.paths = some paths → a.flags = some flags → a.maybe_ctx = some true →
        event_recv access ctx a
            = event_recv_list ctx (indexed_events access (some paths) flags a.count)
          ∧ (indexed_events access (some paths) flags a.count).length = a.count
          ∧ ∀ i, i < a.count →
              (indexed_events access (some paths) flags a.count)[i]?
                = some ⟨access i, path_from_event_at (some paths) i, flags i⟩) := by
  constructor
  · intro h
    obtain ⟨mc, count, paths, flags⟩ := a
    simp only at h
    rcases h with h | h | h | h <;> subst h
    · rfl
    · cases paths <;> rfl
    · cases paths <;> cases flags <;> rfl
    · cases paths <;> cases flags <;> rfl
  · intro paths flags hp hf hc
    obtain ⟨mc, count, ps, fl⟩ := a
    simp only at hp hf hc
    subst hp hf hc
    refine ⟨?_, ?_, ?_⟩
    · rw [recv_eq_list]
      simp only [recv_events]
      rw [loop_events_indexed]
    · simp [indexed_events]
    · intro i hi
      simp [indexed_events, List.getElem?_range hi, hi]

/-- C24, applied to an invocation with a null context pointer (nothing is
delivered although event 0 carries the created flag), and to an invocation of
two events with a full context. -/
theorem C24_partial_context_guard_witness :
    event_recv (fun _ _ => 0) watch_initial_ctx
        ⟨none, 1, some (fun _ => none), some (fun _ => fsev_flag_effect_create)⟩
      = (watch_initial_ctx, [])
    ∧ event_recv (fun _ _ => 0) watch_initial_ctx
        ⟨some true, 2, some (fun _ => none), some (fun _ => fsev_flag_effect_create)⟩
      = event_recv_list watch_initial_ctx
          (indexed_events (fun _ _ => 0) (some (fun _ => none))
            (fun _ => fsev_flag_effect_create) 2) :=
  ⟨(C24_partial_context_guard (fun _ _ => 0) watch_initial_ctx
      ⟨none, 1, some (fun _ => none), some (fun _ => fsev_flag_effect_create)⟩).1
      (Or.inr (Or.inr (Or.inl rfl))),
    ((C24_partial_context_guard (fun _ _ => 0) watch_initial_ctx
      ⟨some true, 2, some (fun _ => none), some (fun _ => fsev_flag_effect_create)⟩).2
      (fun _ => none) (fun _ => fsev_flag_effect_create) rfl rfl rfl).1⟩

/-- C27.  Start `event_recv_one` from the empty seen-created set and run it
over any sequence of events.  After every prefix of the sequence, a path is in
the seen-created set exactly when a `Create` event was delivered for it and no
`Destroy` event for it was delivered since (the last of its `Create` and
`Destroy` events is a `Create`); the calls of a prefix are a prefix of the
calls of the whole run; and for each path the delivered `Create` and `Destroy`
events strictly alternate, beginning with `Create`.  So it is also for every
sequence of invocations of `event_recv`. -/
theorem C27_seen_created_invariant (es : List fs_event) (n : Nat) (P : String)
    (bs : List ((Nat → String → Int) × event_recv_args)) :
    (P ∈ (event_recv_list watch_initial_ctx (es.take n)).1.seen_created_paths
      ↔ last_or false
          (create_destroy_trace P (event_recv_list watch_initial_ctx (es.take n)).2) = true)
    ∧ (event_recv_list watch_initial_ctx (es.take n)).2
        <+: (event_recv_list watch_initial_ctx es).2
    ∧ strictly_alternates true
        (create_destroy_trace P (event_recv_list watch_initial_ctx es).2) = true
    ∧ (P ∈ (event_recv_seq watch_initial_ctx (bs.take n)).1.seen_created_paths
      ↔ last_or false
          (create_destroy_trace P (event_recv_seq watch_initial_ctx (bs.take n)).2) = true)
    ∧ strictly_alternates true
        (create_destroy_trace P (event_recv_seq watch_initial_ctx bs).2) = true := by
  have key : ∀ l : List fs_event,
      (P ∈ (event_recv_list watch_initial_ctx l).1.seen_created_paths
        ↔ last_or false
            (create_destroy_trace P (event_recv_list watch_initial_ctx l).2) = true)
      ∧ strictly_alternates true
          (create_destroy_trace P (event_recv_list watch_initial_ctx l).2) = true := by
    intro l
    obtain ⟨halt, hset⟩ := follows_list watch_initial_ctx l
    constructor
    · rw [hset, seen_after_last]
      simp [watch_initial_ctx]
    · have h := trace_alternates _ P _ halt
      simpa [watch_initial_ctx] using h
  refine ⟨(key _).1, ?_, (key _).2, ?_, ?_⟩
  · have h := list_append watch_initial_ctx (es.take n) (es.drop n)
    rw [List.take_append_drop] at h
    rw [h]
    exact List.prefix_append _ _
  · rw [seq_eq_list]
    exact (key _).1
  · rw [seq_eq_list]
    exact (key _).2

end darwin_guard_claims
